import Mathlib

/-!
# Verification of the git-graph repository object model and traversal engine

Shallow embedding of `src/git-graph.py`. The Python classes `GitRepo` and the
module-level entry points are translated into pure Lean functions over an
explicit state record. Machine effects:

* Python dictionaries become association lists with Python-dict semantics
  (`lookupA` first match, `setA` replace-in-place-or-append, preserving key
  insertion order).
* `subprocess`-backed `git cat-file` becomes a lookup in an immutable `Store`
  (hash → raw object text), with every invocation recorded in a `fetchLog`
  instrumentation field.
* Python exceptions become an `Err` sum propagated together with the mutated
  state (Python object state survives an exception).
* The unbounded mutual recursion `get_tree` ↔ `parse_tree` (a cyclic store can
  make the Python script diverge) is made total with an explicit fuel
  parameter; running out of fuel yields the distinguished result
  `Err.noFuel`, which never corresponds to a behaviour of the script.
* The mutable default argument `visited: Set[Hash] = set()` of
  `traverse_history` is bound once at function-definition time in Python and
  therefore shared across every call that does not pass `visited` explicitly,
  including calls made from a *different* `GitRepo` instance.  The model makes
  this explicit: the visited set is threaded separately from the per-instance
  `GitRepo` state, and a fresh Python *process* corresponds to starting with
  the empty visited set.
-/

namespace GitGraph

/-! ## Python string helpers

`pySplit` models Python's `str.split()` (split on runs of whitespace,
discarding empty tokens); `splitLines` models `str.split('\n')` (keeping
empty pieces). Both are written over `List Char` so that concrete runs reduce
in the kernel. -/

/-- Split a character list on whitespace runs, accumulating the current token
reversed; models Python `str.split()`. -/
def pySplitAux : List Char → List Char → List (List Char)
  | [], cur => if cur.isEmpty then [] else [cur.reverse]
  | c :: rest, cur =>
    if c.isWhitespace then
      if cur.isEmpty then pySplitAux rest [] else cur.reverse :: pySplitAux rest []
    else
      pySplitAux rest (c :: cur)

/-- Python `line.split()`: whitespace-tokenize, dropping empty tokens. -/
def pySplit (s : String) : List String :=
  (pySplitAux s.toList []).map fun cs => ⟨cs⟩

/-- Split on `'\n'`, keeping empty pieces; models Python `content.split('\n')`. -/
def splitLinesAux : List Char → List (List Char)
  | [] => [[]]
  | c :: rest =>
    if c = '\n' then [] :: splitLinesAux rest
    else
      match splitLinesAux rest with
      | l :: ls => (c :: l) :: ls
      | [] => [[c]]

/-- Python `content.split('\n')`. -/
def splitLines (s : String) : List String :=
  (splitLinesAux s.toList).map fun cs => ⟨cs⟩

/-! ## Git object types (the namedtuples of the script) -/

/-- `Commit = collections.namedtuple('Commit', 'hash tree parents')`; the
`tree` field is `None` (here `none`) when no `tree` line is present. -/
structure Commit where
  hash : String
  tree : Option String
  parents : List String
deriving DecidableEq, Repr

/-- `Tree = collections.namedtuple('Tree', 'hash name trees blobs')`. -/
structure Tree where
  hash : String
  name : String
  trees : List String
  blobs : List String
deriving DecidableEq, Repr

/-- `Blob = collections.namedtuple('Blob', 'hash name')`. -/
structure Blob where
  hash : String
  name : String
deriving DecidableEq, Repr

/-- A value of the object cache `self.cache : Dict[Hash, object]`: commits and
trees are stored there (blobs live in `self.blobs`). -/
inductive Obj where
  | commit (c : Commit)
  | tree (t : Tree)
deriving DecidableEq, Repr

/-- `.hash` attribute access, defined on both shapes (Python duck typing). -/
def Obj.hash : Obj → String
  | .commit c => c.hash
  | .tree t => t.hash

/-! ## Association lists with Python-dict semantics -/

/-- First-match lookup; `k in d` is `(lookupA d k).isSome`. -/
def lookupA {α : Type} : List (String × α) → String → Option α
  | [], _ => none
  | (k, v) :: rest, key => if k = key then some v else lookupA rest key

/-- `d[key] = val`: replace in place if the key exists (keeping its position,
as Python dicts do), else append at the end. -/
def setA {α : Type} : List (String × α) → String → α → List (String × α)
  | [], key, val => [(key, val)]
  | (k, v) :: rest, key, val =>
    if k = key then (k, val) :: rest else (k, v) :: setA rest key val

/-- The keys of an association list, in insertion order. -/
def keysA {α : Type} (m : List (String × α)) : List String :=
  m.map Prod.fst

/-! ## Errors (Python exceptions) -/

/-- Exceptions the script can raise, plus the fuel marker.
`objectNotFound h` is `Exception('Object {h} not found.')` from
`git_cat_file`; `malformedTreeEntry` is the `ValueError` raised by unpacking
a tree-entry line that does not have exactly four tokens (named
`MalformedTreeEntry` in the spec); `attributeError` is the `AttributeError`
from accessing `.parents` on a cached non-commit object; `keyError` is a
`KeyError` from `self.cache[hash]` (unreachable in practice); `noFuel` is the
fuel-exhaustion marker of the embedding, not a behaviour of the script. -/
inductive Err where
  | objectNotFound (h : String)
  | malformedTreeEntry
  | attributeError
  | keyError
  | noFuel
deriving DecidableEq, Repr

/-- Decidable equality for `Except` results, so that concrete runs can be
checked by `decide`. -/
instance {ε α : Type} [DecidableEq ε] [DecidableEq α] : DecidableEq (Except ε α) := fun x y =>
  match x, y with
  | .ok a, .ok b =>
    if h : a = b then .isTrue (by rw [h]) else .isFalse (by simp [h])
  | .error a, .error b =>
    if h : a = b then .isTrue (by rw [h]) else .isFalse (by simp [h])
  | .ok _, .error _ => .isFalse (by simp)
  | .error _, .ok _ => .isFalse (by simp)

/-! ## The mutable `GitRepo` instance state -/

/-- The mutable fields of a `GitRepo` instance (the path fields, which only
feed the external process invocations, are omitted), plus two instrumentation
fields that record observable events without influencing control flow:
`fetchLog` lists the hashes passed to `git_cat_file` in order, and `walkLog`
lists the commit hashes for which the body of `traverse_history` (past the
visited-set check) ran. -/
structure St where
  cache : List (String × Obj)
  branch_to_commit : List (String × String)
  commit_to_parents : List (String × List String)
  commit_to_tree : List (String × String)
  tree_to_trees : List (String × List String)
  tree_to_blobs : List (String × List String)
  blobs : List (String × Blob)
  fetchLog : List String
  walkLog : List String
deriving DecidableEq, Repr

/-- A freshly constructed `GitRepo` (its `__init__` sets every dictionary
empty). -/
def St.new : St := ⟨[], [], [], [], [], [], [], [], []⟩

/-- The immutable object store backing `git cat-file -p <hash>`:
hash → raw object text. -/
def Store : Type := List (String × String)

/-! ## `GitRepo` methods that need no fuel -/

/-- `GitRepo.git_cat_file`: invoke the external fetch capability (recorded in
`fetchLog`), returning the raw text or raising `objectNotFound`. -/
def git_cat_file (store : Store) (st : St) (h : String) : Except Err String × St :=
  let st := { st with fetchLog := st.fetchLog ++ [h] }
  match lookupA store h with
  | some content => (.ok content, st)
  | none => (.error (.objectNotFound h), st)

/-- `GitRepo.add_to_multimap`: ensure the key maps to a list, then append the
value unless already present. -/
def add_to_multimap (m : List (String × List String)) (k v : String) :
    List (String × List String) :=
  let m1 := match lookupA m k with
    | none => setA m k []
    | some _ => m
  let vs := (lookupA m1 k).getD []
  if v ∈ vs then m1 else setA m1 k (vs ++ [v])

/-- The loop body of `GitRepo.parse_commit`: thread the `tree`/`parents`
fields of the dict over the lines. Empty lines and lines with fewer than two
whitespace tokens are skipped; a `tree` line overwrites the tree field; a
`parent` line appends its second token. -/
def parse_commit_lines : List String → Option String → List String →
    Option String × List String
  | [], t, ps => (t, ps)
  | l :: rest, t, ps =>
    if l = "" then parse_commit_lines rest t ps
    else
      match pySplit l with
      | k :: v :: _ =>
        if k = "tree" then parse_commit_lines rest (some v) ps
        else if k = "parent" then parse_commit_lines rest t (ps ++ [v])
        else parse_commit_lines rest t ps
      | _ => parse_commit_lines rest t ps

/-- `GitRepo.parse_commit`. -/
def parse_commit (h : String) (content : String) : Commit :=
  let r := parse_commit_lines (splitLines content) none []
  ⟨h, r.1, r.2⟩

/-- Python's `mode, type, child_hash, child_name = line.split()`: the four
tokens of a tree-entry line, or `none` when the line does not decompose into
exactly four whitespace-separated fields (in which case the unpacking raises
a `ValueError`, the spec's `MalformedTreeEntry`). -/
def entry4? (l : String) : Option (String × String × String × String) :=
  match pySplit l with
  | [mode, ty, child_hash, child_name] => some (mode, ty, child_hash, child_name)
  | _ => none

/-! ## The fueled `get_tree` / `parse_tree` recursion

Every function checks the fuel at entry (`0` → `noFuel`) and passes the
decremented fuel to every call, so the whole family is structurally recursive
on the fuel. -/

mutual

/-- `GitRepo.get_tree`: cached objects are returned as they are (whatever
their shape); otherwise fetch, parse, record the `tree_to_blobs` and
`tree_to_trees` edges (in that source order), cache, and return the cache
entry. -/
def get_tree : Nat → Store → St → String → String → Except Err Obj × St
  | 0, _, st, _, _ => (.error .noFuel, st)
  | n + 1, store, st, h, name =>
    match lookupA st.cache h with
    | some obj => (.ok obj, st)
    | none =>
      match git_cat_file store st h with
      | (.error e, st) => (.error e, st)
      | (.ok content, st) =>
        match parse_tree n store st h name content with
        | (.error e, st) => (.error e, st)
        | (.ok tree, st) =>
          let st := tree.blobs.foldl
            (fun s c => { s with tree_to_blobs := add_to_multimap s.tree_to_blobs h c }) st
          let st := tree.trees.foldl
            (fun s c => { s with tree_to_trees := add_to_multimap s.tree_to_trees h c }) st
          let st := { st with cache := setA st.cache h (.tree tree) }
          match lookupA st.cache h with
          | some obj => (.ok obj, st)
          | none => (.error .keyError, st)

/-- `GitRepo.parse_tree`: split into lines, run the entry loop, build the
`Tree` namedtuple. -/
def parse_tree : Nat → Store → St → String → String → String → Except Err Tree × St
  | 0, _, st, _, _, _ => (.error .noFuel, st)
  | n + 1, store, st, h, name, content =>
    match parse_tree_lines n store st (splitLines content) [] [] with
    | (.error e, st) => (.error e, st)
    | (.ok (aT, aB), st) => (.ok ⟨h, name, aT, aB⟩, st)

/-- The `for line in lines` loop of `GitRepo.parse_tree`, threading the
`trees` and `blobs` accumulators of the dict. An empty line is skipped; a
line that does not split into exactly four tokens raises
(`mode, type, child_hash, child_name = line.split()`, modelled by `entry4?`);
a `tree` entry first resolves the child
(`self.get_tree(child_hash, child_name)`), then appends its hash; a `blob`
entry appends its hash and records the `Blob`; any other entry type is
skipped. -/
def parse_tree_lines : Nat → Store → St → List String → List String → List String →
    Except Err (List String × List String) × St
  | 0, _, st, _, _, _ => (.error .noFuel, st)
  | n + 1, store, st, lines, accT, accB =>
    match lines with
    | [] => (.ok (accT, accB), st)
    | l :: rest =>
      if l = "" then parse_tree_lines n store st rest accT accB
      else
        match entry4? l with
        | some (_mode, ty, child_hash, child_name) =>
          if ty = "tree" then
            match get_tree n store st child_hash child_name with
            | (.error e, st) => (.error e, st)
            | (.ok _, st) => parse_tree_lines n store st rest (accT ++ [child_hash]) accB
          else if ty = "blob" then
            let st := { st with blobs := setA st.blobs child_hash ⟨child_hash, child_name⟩ }
            parse_tree_lines n store st rest accT (accB ++ [child_hash])
          else parse_tree_lines n store st rest accT accB
        | none => (.error .malformedTreeEntry, st)

end

/-- `GitRepo.get_commit`: cached objects are returned as is; otherwise fetch,
parse, cache, then eagerly resolve the commit's tree and record the
`commit_to_tree` edge, and finally return the cache entry. A commit with no
`tree` line makes Python call `get_tree(None)`, whose `git cat-file -p None`
invocation always fails; this is modelled by logging the fetch of the literal
string `"None"` and raising `objectNotFound "None"`. -/
def get_commit : Nat → Store → St → String → Except Err Obj × St
  | 0, _, st, _ => (.error .noFuel, st)
  | n + 1, store, st, h =>
    match lookupA st.cache h with
    | some obj => (.ok obj, st)
    | none =>
      match git_cat_file store st h with
      | (.error e, st) => (.error e, st)
      | (.ok content, st) =>
        let commit := parse_commit h content
        let st := { st with cache := setA st.cache h (.commit commit) }
        match commit.tree with
        | none =>
          let st := { st with fetchLog := st.fetchLog ++ ["None"] }
          (.error (.objectNotFound "None"), st)
        | some t =>
          match get_tree n store st t "/" with
          | (.error e, st) => (.error e, st)
          | (.ok treeObj, st) =>
            let st := { st with commit_to_tree := setA st.commit_to_tree commit.hash treeObj.hash }
            match lookupA st.cache h with
            | some obj => (.ok obj, st)
            | none => (.error .keyError, st)

/-! ## The ancestry walk -/

mutual

/-- `GitRepo.traverse_history`: stop if the hash was already visited,
otherwise mark it visited (also appending it to the `walkLog`
instrumentation), resolve the commit, and walk its parents. A cached
non-commit object has no `.parents` attribute (Python `AttributeError`). -/
def traverse_history : Nat → Store → St → List String → String →
    Except Err Unit × St × List String
  | 0, _, st, visited, _ => (.error .noFuel, st, visited)
  | n + 1, store, st, visited, commit_hash =>
    if commit_hash ∈ visited then (.ok (), st, visited)
    else
      let visited := commit_hash :: visited
      let st := { st with walkLog := st.walkLog ++ [commit_hash] }
      match get_commit n store st commit_hash with
      | (.error e, st) => (.error e, st, visited)
      | (.ok obj, st) =>
        match obj with
        | .commit c => traverse_parents n store st visited commit_hash c.parents
        | .tree _ => (.error .attributeError, st, visited)

/-- The `for parent_hash in commit.parents` loop of `traverse_history`:
record the `(commit, parent)` edge, then recurse into the parent. -/
def traverse_parents : Nat → Store → St → List String → String → List String →
    Except Err Unit × St × List String
  | 0, _, st, visited, _, _ => (.error .noFuel, st, visited)
  | n + 1, store, st, visited, commit_hash, ps =>
    match ps with
    | [] => (.ok (), st, visited)
    | parent_hash :: rest =>
      let st := { st with
        commit_to_parents := add_to_multimap st.commit_to_parents commit_hash parent_hash }
      match traverse_history n store st visited parent_hash with
      | (.error e, st, visited) => (.error e, st, visited)
      | (.ok _, st, visited) => traverse_parents n store st visited commit_hash rest

end

/-- `GitRepo.parse_dot_git_dir`, with the branches (read from
`.git/refs/heads` in the script) supplied as `(name, commit-hash)` pairs:
record each branch pointer and walk its history. The visited set is threaded
explicitly because the Python default argument is shared across all calls in
a process (see the header). -/
def parse_dot_git_dir (n : Nat) (store : Store) :
    St → List String → List (String × String) → Except Err Unit × St × List String
  | st, visited, [] => (.ok (), st, visited)
  | st, visited, (name, commit) :: rest =>
    let st := { st with branch_to_commit := setA st.branch_to_commit name commit }
    match traverse_history n store st visited commit with
    | (.error e, st, visited) => (.error e, st, visited)
    | (.ok _, st, visited) => parse_dot_git_dir n store st visited rest

/-- The `main` flow relevant to the graph: `parse_git_repo` on a fresh
`GitRepo` (fresh process, so the visited set starts empty), then
`generate_graph` — the rendering sink — only if parsing did not raise.
Returns the parse result together with whether the rendering sink was
invoked. -/
def gitGraphMain (n : Nat) (store : Store) (branches : List (String × String)) :
    (Except Err Unit × St × List String) × Bool :=
  let r := parse_dot_git_dir n store St.new [] branches
  (r, match r.1 with
      | .ok _ => true
      | .error _ => false)

/-! ## Association-list lemmas -/

theorem lookupA_setA_self {α : Type} (m : List (String × α)) (k : String) (v : α) :
    lookupA (setA m k v) k = some v := by
  induction m with
  | nil => simp [setA, lookupA]
  | cons p rest ih =>
    obtain ⟨k', v'⟩ := p
    by_cases hk : k' = k
    · simp [setA, hk, lookupA]
    · simp [setA, hk, lookupA, ih]

theorem keysA_setA_eq {α : Type} (m : List (String × α)) (k : String) (v : α) :
    keysA (setA m k v) = if k ∈ keysA m then keysA m else keysA m ++ [k] := by
  induction m with
  | nil => simp [setA, keysA]
  | cons p rest ih =>
    obtain ⟨k', v'⟩ := p
    by_cases hk : k' = k
    · subst hk
      simp [setA, keysA]
    · have hk' : ¬k = k' := fun h => hk h.symm
      simp only [setA, if_neg hk, keysA, List.map_cons, List.mem_cons, hk', false_or] at ih ⊢
      rw [ih]
      by_cases hmem : k ∈ List.map Prod.fst rest <;> simp [hmem]

theorem mem_keysA_setA {α : Type} (m : List (String × α)) (k : String) (v : α) (x : String)
    (hx : x ∈ keysA (setA m k v)) : x = k ∨ x ∈ keysA m := by
  rw [keysA_setA_eq] at hx
  by_cases hmem : k ∈ keysA m
  · rw [if_pos hmem] at hx
    exact Or.inr hx
  · rw [if_neg hmem] at hx
    rcases List.mem_append.mp hx with h | h
    · exact Or.inr h
    · exact Or.inl (by simpa using h)

theorem keysA_setA_nodup {α : Type} (m : List (String × α)) (k : String) (v : α)
    (hm : (keysA m).Nodup) : (keysA (setA m k v)).Nodup := by
  rw [keysA_setA_eq]
  by_cases hmem : k ∈ keysA m
  · simpa [hmem] using hm
  · rw [if_neg hmem]
    exact hm.append (List.nodup_singleton k)
      (fun x hx hxk => hmem ((List.mem_singleton.mp hxk) ▸ hx))

theorem mem_keysA_of_lookupA {α : Type} (m : List (String × α)) (k : String) (v : α)
    (h : lookupA m k = some v) : k ∈ keysA m := by
  induction m with
  | nil => simp [lookupA] at h
  | cons p rest ih =>
    obtain ⟨k', v'⟩ := p
    by_cases hk : k' = k
    · simp [keysA, hk]
    · simp only [lookupA, hk, if_neg, ite_false] at h
      simp [keysA] at ih ⊢
      exact Or.inr (ih h)

theorem lookupA_none_of_not_mem {α : Type} (m : List (String × α)) (k : String)
    (h : k ∉ keysA m) : lookupA m k = none := by
  induction m with
  | nil => rfl
  | cons p rest ih =>
    obtain ⟨k', v'⟩ := p
    simp only [keysA, List.map_cons, List.mem_cons, not_or] at h
    have hne : ¬k' = k := fun e => h.1 e.symm
    simp only [lookupA, if_neg hne]
    exact ih h.2

/-! ## `parse_commit` lemmas -/

theorem pySplit_empty : pySplit "" = [] := rfl

/-- A line made only of whitespace has no tokens. -/
theorem pySplit_eq_nil_of_whitespace (s : String) (h : ∀ c ∈ s.toList, c.isWhitespace) :
    pySplit s = [] := by
  have haux : ∀ cs : List Char, (∀ c ∈ cs, c.isWhitespace) → pySplitAux cs [] = [] := by
    intro cs
    induction cs with
    | nil => intro _; rfl
    | cons c rest ih =>
      intro hws
      have hc : c.isWhitespace := hws c (by simp)
      simp only [pySplitAux, hc, if_true, List.isEmpty_nil, ite_true]
      exact ih fun c' hc' => hws c' (by simp [hc'])
  unfold pySplit
  rw [haux s.toList h]
  rfl

/-- A line with fewer than two whitespace tokens is skipped by the commit
parser. -/
theorem parse_commit_lines_skip_short (l : String) (rest : List String)
    (t : Option String) (ps : List String) (hl : (pySplit l).length < 2) :
    parse_commit_lines (l :: rest) t ps = parse_commit_lines rest t ps := by
  by_cases h0 : l = ""
  · simp [parse_commit_lines, h0]
  · rcases hp : pySplit l with _ | ⟨k, _ | ⟨v, tl⟩⟩
    · simp [parse_commit_lines, h0, hp]
    · simp [parse_commit_lines, h0, hp]
    · rw [hp] at hl
      simp only [List.length_cons] at hl
      omega

/-- The token contributed by a line to the parent list, if any. -/
def parentTok (l : String) : Option String :=
  match pySplit l with
  | k :: v :: _ => if k = "parent" then some v else none
  | _ => none

/-- The token contributed by a line to the tree field, if any. -/
def commitTreeTok (l : String) : Option String :=
  match pySplit l with
  | k :: v :: _ => if k = "tree" then some v else none
  | _ => none

/-- Closed form of the commit-parsing loop: the parents are all `parent`
second-tokens in order, and the tree field is overwritten by each `tree`
second-token in turn. -/
theorem parse_commit_lines_eq (lines : List String) (t : Option String) (ps : List String) :
    parse_commit_lines lines t ps =
      ((lines.filterMap commitTreeTok).foldl (fun _ v => some v) t,
        ps ++ lines.filterMap parentTok) := by
  induction lines generalizing t ps with
  | nil => simp [parse_commit_lines]
  | cons l rest ih =>
    by_cases h0 : l = ""
    · subst h0
      simp [parse_commit_lines, commitTreeTok, parentTok, pySplit_empty, ih]
    · rcases hp : pySplit l with _ | ⟨k, _ | ⟨v, tl⟩⟩
      · simp [parse_commit_lines, h0, hp, commitTreeTok, parentTok, ih]
      · simp [parse_commit_lines, h0, hp, commitTreeTok, parentTok, ih]
      · by_cases hk : k = "tree"
        · simp [parse_commit_lines, h0, hp, hk, commitTreeTok, parentTok, ih]
        · by_cases hk' : k = "parent"
          · simp [parse_commit_lines, h0, hp, hk, hk', commitTreeTok, parentTok, ih]
          · simp [parse_commit_lines, h0, hp, hk, hk', commitTreeTok, parentTok, ih]

/-! ## Claim theorems: the pure commit parser -/

/-- C3: a commit record with `tree h1`, `parent p1`, `parent p2`, author and
committer lines parses to tree `h1`, parents `[p1, p2]` in encounter order,
nothing else retained; a line with fewer than two whitespace tokens is
skipped; a record with a tree line and no parent lines yields `parents = []`,
and traversing a branch pointing to such a root commit records zero parent
edges and terminates (succeeds at finite fuel). -/
theorem commit_field_narrowing :
    (parse_commit "h" "tree h1\nparent p1\nparent p2\nauthor alice 1\ncommitter bob 2" =
      ⟨"h", some "h1", ["p1", "p2"]⟩)
    ∧ (∀ l rest t ps, (pySplit l).length < 2 →
        parse_commit_lines (l :: rest) t ps = parse_commit_lines rest t ps)
    ∧ (parse_commit "c0" "tree t1").parents = []
    ∧ ((parse_dot_git_dir 10 [("c0", "tree t1"), ("t1", "")] St.new [] [("main", "c0")]).1 =
        .ok ())
    ∧ ((parse_dot_git_dir 10 [("c0", "tree t1"), ("t1", "")] St.new []
        [("main", "c0")]).2.1.commit_to_parents = []) := by
  refine ⟨by decide, parse_commit_lines_skip_short, by decide, by decide, by decide⟩

/-- Witness for C3: the skip-hypothesis discharged on the one-token line
`"author"`. -/
theorem commit_field_narrowing_witness :
    ((pySplit "author").length < 2)
    ∧ parse_commit_lines ["author", "parent p9"] none [] =
        parse_commit_lines ["parent p9"] none [] :=
  ⟨by decide, commit_field_narrowing.2.1 "author" ["parent p9"] none [] (by decide)⟩

/-- C10: `parse_commit` scans every line with no positional or multiplicity
constraints: the parents are exactly the second tokens of all `parent` lines
anywhere in the record, in order; the tree field is overwritten by each
`tree` line in turn (so the last one wins); a record with no `tree` line
yields `tree = none` rather than an error. -/
theorem parse_commit_scans_all_lines :
    (∀ h content, (parse_commit h content).parents = (splitLines content).filterMap parentTok)
    ∧ (∀ h content, (parse_commit h content).tree =
        ((splitLines content).filterMap commitTreeTok).foldl (fun _ v => some v) none)
    ∧ (∀ h content, (parse_commit h content).hash = h)
    ∧ (parse_commit "h" "tree a\ntree b" = ⟨"h", some "b", []⟩)
    ∧ (parse_commit "h" "tree a\nparent p1\n\nThis reverts x.\nparent deadbeef" =
        ⟨"h", some "a", ["p1", "deadbeef"]⟩)
    ∧ ((parse_commit "h" "parent p1\nauthor a 1").tree = none) := by
  refine ⟨?_, ?_, ?_, by decide, by decide, by decide⟩
  · intro h content
    simp [parse_commit, parse_commit_lines_eq]
  · intro h content
    simp [parse_commit, parse_commit_lines_eq]
  · intro h content
    simp [parse_commit]

/-! ## Claim theorems: the multimap -/

theorem lookupA_add_to_multimap_self (m : List (String × List String)) (k v : String) :
    ∃ vs, lookupA (add_to_multimap m k v) k = some vs ∧ v ∈ vs := by
  rcases hl : lookupA m k with _ | vs
  · by_cases hv : v ∈ ([] : List String)
    · simp at hv
    · refine ⟨[v], ?_, by simp⟩
      simp [add_to_multimap, hl, lookupA_setA_self, lookupA_setA_self]
  · by_cases hv : v ∈ vs
    · exact ⟨vs, by simp [add_to_multimap, hl, hv], hv⟩
    · exact ⟨vs ++ [v], by simp [add_to_multimap, hl, hv, lookupA_setA_self], by simp⟩

/-- C5: multimap insertion is deduplicating and order-preserving: inserting a
pair whose value is already present is a no-op; re-inserting the same pair is
idempotent; a new value is appended at the end of the key's list (so values
are kept in first-insertion order), and a new key starts with `[v]`. -/
theorem multimap_dedup_order :
    (∀ m k v, v ∈ (lookupA m k).getD [] → add_to_multimap m k v = m)
    ∧ (∀ m k v, add_to_multimap (add_to_multimap m k v) k v = add_to_multimap m k v)
    ∧ (∀ m k v vs, lookupA m k = some vs → v ∉ vs →
        lookupA (add_to_multimap m k v) k = some (vs ++ [v]))
    ∧ (∀ m k v, lookupA m k = none →
        lookupA (add_to_multimap m k v) k = some [v]) := by
  have hmem : ∀ m k (v : String), v ∈ (lookupA m k).getD [] → add_to_multimap m k v = m := by
    intro m k v hv
    rcases hl : lookupA m k with _ | vs
    · rw [hl] at hv; simp at hv
    · rw [hl] at hv; simp only [Option.getD_some] at hv
      simp [add_to_multimap, hl, hv]
  refine ⟨hmem, ?_, ?_, ?_⟩
  · intro m k v
    obtain ⟨vs, hvs, hv⟩ := lookupA_add_to_multimap_self m k v
    exact hmem _ k v (by simp [hvs, hv])
  · intro m k v vs hl hv
    simp [add_to_multimap, hl, hv, lookupA_setA_self]
  · intro m k v hl
    have : v ∉ ([] : List String) := by simp
    simp [add_to_multimap, hl, this, lookupA_setA_self]

/-- Witness for C5: re-inserting `("t", "b")` into a multimap already holding
it is a no-op, and a fresh value is appended behind the existing one. -/
theorem multimap_dedup_order_witness :
    (add_to_multimap [("t", ["a", "b"])] "t" "b" = [("t", ["a", "b"])])
    ∧ (lookupA (add_to_multimap [("t", ["a", "b"])] "t" "c") "t" = some ["a", "b", "c"]) :=
  ⟨multimap_dedup_order.1 [("t", ["a", "b"])] "t" "b" (by decide),
    multimap_dedup_order.2.2.1 [("t", ["a", "b"])] "t" "c" ["a", "b"] (by decide) (by decide)⟩

/-! ## Tree-entry parsing lemmas -/

/-- `entry4? l = none` is exactly "`l` does not decompose into four fields". -/
theorem entry4_none_iff (l : String) : entry4? l = none ↔ (pySplit l).length ≠ 4 := by
  rcases hp : pySplit l with _ | ⟨a, _ | ⟨b, _ | ⟨c, _ | ⟨d, _ | tl⟩⟩⟩⟩
  all_goals simp [entry4?, hp]

/-- The subtree hash contributed by a tree-entry line, if any. -/
def treeEntryTok (l : String) : Option String :=
  match entry4? l with
  | some (_mode, ty, c, _name) => if ty = "tree" then some c else none
  | none => none

/-- The blob hash contributed by a tree-entry line, if any. -/
def blobEntryTok (l : String) : Option String :=
  match entry4? l with
  | some (_mode, ty, c, _name) => if ty = "blob" then some c else none
  | none => none

/-- On success, the entry loop returns exactly the `tree`-typed child hashes
and the `blob`-typed child hashes of the lines, in order, appended to the
accumulators. -/
theorem parse_tree_lines_ok_eq : ∀ (n : Nat) (store : Store) (st : St) (lines : List String)
    (aT aB : List String) (res : List String × List String) (st' : St),
    parse_tree_lines n store st lines aT aB = (.ok res, st') →
    res.1 = aT ++ lines.filterMap treeEntryTok ∧ res.2 = aB ++ lines.filterMap blobEntryTok := by
  intro n
  induction n with
  | zero =>
    intro store st lines aT aB res st' h
    simp [parse_tree_lines] at h
  | succ n ih =>
    intro store st lines aT aB res st' h
    match lines with
    | [] =>
      simp only [parse_tree_lines, Prod.mk.injEq] at h
      obtain ⟨h1, -⟩ := h
      obtain ⟨rfl⟩ : res = (aT, aB) := by
        cases h1
        simp_all
      simp
    | l :: rest =>
      by_cases h0 : l = ""
      · subst h0
        simp only [parse_tree_lines, if_pos rfl] at h
        have := ih store st rest aT aB res st' h
        simpa [treeEntryTok, blobEntryTok, entry4?, pySplit_empty] using this
      · rcases h4 : entry4? l with _ | ⟨m, ty, c, nm⟩
        · simp [parse_tree_lines, h0, h4] at h
        · by_cases hty : ty = "tree"
          · subst hty
            rcases hgt : get_tree n store st c nm with ⟨e | v, st₂⟩
            · simp [parse_tree_lines, h0, h4, hgt] at h
            · simp only [parse_tree_lines, if_neg h0, h4, if_pos rfl, hgt] at h
              have := ih store st₂ rest (aT ++ [c]) aB res st' h
              simpa [treeEntryTok, blobEntryTok, h4] using this
          · by_cases hty' : ty = "blob"
            · subst hty'
              simp only [parse_tree_lines, if_neg h0, h4, hty, if_neg, ite_false,
                if_pos rfl] at h
              have := ih store _ rest aT (aB ++ [c]) res st' h
              simpa [treeEntryTok, blobEntryTok, h4, hty] using this
            · simp only [parse_tree_lines, if_neg h0, h4, if_neg hty, if_neg hty'] at h
              have := ih store st rest aT aB res st' h
              simpa [treeEntryTok, blobEntryTok, h4, hty, hty'] using this

/-! ## Claim theorems: ragged and whitespace-only lines (C7) -/

/-- C7 counterexample: `parse_tree` does *not* skip a whitespace-only line —
the raw text `" "` (one space) is non-empty, has zero tokens, and raises the
malformed-entry error. -/
theorem parser_whitespace_cex :
    (parse_tree 2 [] St.new "t" "/" " ").1 = .error .malformedTreeEntry := by decide

/-- C7 (amended): `parse_commit` skips empty and whitespace-only lines
without error; `parse_tree` skips *empty* lines without error, but a
whitespace-only (non-empty) line in a tree record is a hard
`MalformedTreeEntry` failure, because it does not decompose into four
fields. -/
theorem parser_ragged_lines :
    (∀ l rest t ps, (∀ c ∈ l.toList, c.isWhitespace) →
        parse_commit_lines (l :: rest) t ps = parse_commit_lines rest t ps)
    ∧ (∀ n store st rest aT aB,
        parse_tree_lines (n + 1) store st ("" :: rest) aT aB =
          parse_tree_lines n store st rest aT aB)
    ∧ (∀ n store st l rest aT aB, l ≠ "" → (∀ c ∈ l.toList, c.isWhitespace) →
        parse_tree_lines (n + 1) store st (l :: rest) aT aB =
          (.error .malformedTreeEntry, st)) := by
  refine ⟨?_, ?_, ?_⟩
  · intro l rest t ps hws
    exact parse_commit_lines_skip_short l rest t ps
      (by rw [pySplit_eq_nil_of_whitespace l hws]; simp)
  · intro n store st rest aT aB
    simp [parse_tree_lines]
  · intro n store st l rest aT aB h0 hws
    have h4 : entry4? l = none := by
      rw [entry4_none_iff, pySplit_eq_nil_of_whitespace l hws]
      simp
    simp [parse_tree_lines, h0, h4]

/-- Witness for C7's amended theorem, at the whitespace-only line `" "`. -/
theorem parser_ragged_lines_witness :
    (parse_commit_lines [" ", "parent p"] none [] = parse_commit_lines ["parent p"] none [])
    ∧ (parse_tree_lines 1 [] St.new [" "] [] [] = (.error .malformedTreeEntry, St.new)) :=
  ⟨parser_ragged_lines.1 " " ["parent p"] none [] (by decide),
    parser_ragged_lines.2.2 0 [] St.new " " [] [] [] (by decide) (by decide)⟩

/-! ## Claim theorems: tree disjointness (C9) -/

/-- C9 counterexample: the parser accepts a record listing the same hash
under a `tree`-typed and a `blob`-typed entry, producing a tree whose
subtree-hash and blob-hash lists share the hash `"a"`. -/
theorem tree_disjointness_cex :
    ((parse_tree 10 [("a", "")] St.new "t" "/" "100644 tree a x\n100644 blob a y").1 =
      .ok ⟨"t", "/", ["a"], ["a"]⟩)
    ∧ (Tree.mk "t" "/" ["a"] ["a"]).trees ∩ (Tree.mk "t" "/" ["a"] ["a"]).blobs ≠ [] := by
  exact ⟨by decide, by decide⟩

/-- C9 (amended): disjointness of the subtree-hash and blob-hash lists holds
for every tree record in which no hash occurs both under a `tree`-typed and
a `blob`-typed entry (as is always the case for a content-addressed store);
the parser itself does not enforce it. -/
theorem tree_disjointness :
    ∀ (n : Nat) (store : Store) (st : St) (h name content : String) (tr : Tree) (st' : St),
      parse_tree n store st h name content = (.ok tr, st') →
      (∀ x ∈ (splitLines content).filterMap treeEntryTok,
          x ∉ (splitLines content).filterMap blobEntryTok) →
      tr.trees ∩ tr.blobs = [] := by
  intro n store st h name content tr st' hpt hdisj
  match n with
  | 0 => simp [parse_tree] at hpt
  | n + 1 =>
    rcases hptl : parse_tree_lines n store st (splitLines content) [] [] with ⟨e | res, st₂⟩
    · simp [parse_tree, hptl] at hpt
    · obtain ⟨hT, hB⟩ := parse_tree_lines_ok_eq n store st (splitLines content) [] [] res st₂ hptl
      simp only [parse_tree, hptl, Prod.mk.injEq, Except.ok.injEq] at hpt
      obtain ⟨rfl, -⟩ := hpt
      rw [List.eq_nil_iff_forall_not_mem]
      intro x hx
      rw [List.mem_inter_iff] at hx
      exact hdisj x (by simpa [hT] using hx.1) (by simpa [hB] using hx.2)

/-- Witness for C9's amended theorem: a one-entry blob record parses with
disjoint (indeed empty) subtree list. -/
theorem tree_disjointness_witness :
    ([] : List String) ∩ ["b1"] = [] :=
  tree_disjointness 5 [] St.new "t" "/" "100644 blob b1 f.txt" ⟨"t", "/", [], ["b1"]⟩
    ⟨[], [], [], [], [], [], [("b1", ⟨"b1", "f.txt"⟩)], [], []⟩ (by decide) (by decide)

/-! ## Claim theorems: malformed tree entries (C4) -/

/-- A tree record containing a non-empty line that does not decompose into
four fields can never parse successfully: the entry loop always raises. -/
theorem parse_tree_lines_bad_no_ok : ∀ (n : Nat) (store : Store) (st : St)
    (lines : List String) (aT aB : List String),
    (∃ l ∈ lines, l ≠ "" ∧ entry4? l = none) →
    ∃ e, (parse_tree_lines n store st lines aT aB).1 = .error e := by
  intro n
  induction n with
  | zero => intro store st lines aT aB _; exact ⟨.noFuel, rfl⟩
  | succ n ih =>
    intro store st lines aT aB hbad
    obtain ⟨l', hl', hne, hl4⟩ := hbad
    match lines, hl' with
    | l :: rest, hl' =>
      by_cases h0 : l = ""
      · subst h0
        have hl'r : l' ∈ rest := by
          rw [List.mem_cons] at hl'
          rcases hl' with h | h
          · exact absurd h hne
          · exact h
        simpa [parse_tree_lines] using ih store st rest aT aB ⟨l', hl'r, hne, hl4⟩
      · rcases h4 : entry4? l with _ | ⟨m, ty, c, nm⟩
        · exact ⟨.malformedTreeEntry, by simp [parse_tree_lines, h0, h4]⟩
        · have hl'r : l' ∈ rest := by
            rw [List.mem_cons] at hl'
            rcases hl' with h | h
            · subst h; rw [hl4] at h4; cases h4
            · exact h
          by_cases hty : ty = "tree"
          · subst hty
            rcases hgt : get_tree n store st c nm with ⟨e | v, st₂⟩
            · exact ⟨e, by simp [parse_tree_lines, h0, h4, hgt]⟩
            · simpa [parse_tree_lines, h0, h4, hgt] using
                ih store st₂ rest (aT ++ [c]) aB ⟨l', hl'r, hne, hl4⟩
          · by_cases hty' : ty = "blob"
            · subst hty'
              simpa [parse_tree_lines, h0, h4, hty] using
                ih store _ rest aT (aB ++ [c]) ⟨l', hl'r, hne, hl4⟩
            · simpa [parse_tree_lines, h0, h4, hty, hty'] using
                ih store st rest aT aB ⟨l', hl'r, hne, hl4⟩

/-- Processing a line of the entry loop depends only on the fuel, the state
and the line itself, so a record splits: after a successfully processed
prefix, the loop continues on the rest of the lines from the prefix's final
state and accumulators, with one fuel spent per prefix line. -/
theorem parse_tree_lines_append : ∀ (xs : List String) (n : Nat) (store : Store) (st : St)
    (ys : List String) (aT aB : List String) (res : List String × List String) (st' : St),
    parse_tree_lines n store st xs aT aB = (.ok res, st') →
    parse_tree_lines n store st (xs ++ ys) aT aB =
      parse_tree_lines (n - xs.length) store st' ys res.1 res.2 := by
  intro xs
  induction xs with
  | nil =>
    intro n store st ys aT aB res st' h
    match n with
    | 0 => simp [parse_tree_lines] at h
    | m + 1 =>
      simp only [parse_tree_lines, Prod.mk.injEq, Except.ok.injEq] at h
      obtain ⟨h1, h2⟩ := h
      subst h2
      subst h1
      simp
  | cons x xt ih =>
    intro n store st ys aT aB res st' h
    match n with
    | 0 => simp [parse_tree_lines] at h
    | m + 1 =>
      have hfuel : (m + 1) - (x :: xt).length = m - xt.length := by
        simp only [List.length_cons]
        omega
      rw [hfuel]
      by_cases h0 : x = ""
      · simp only [List.cons_append, parse_tree_lines, if_pos h0] at h ⊢
        exact ih m store st ys aT aB res st' h
      · rcases h4 : entry4? x with _ | ⟨m4, ty, c, nm⟩
        · simp [List.cons_append, parse_tree_lines, h0, h4] at h
        · by_cases hty : ty = "tree"
          · subst hty
            rcases hgt : get_tree m store st c nm with ⟨e | v, st₂⟩
            · simp [List.cons_append, parse_tree_lines, h0, h4, hgt] at h
            · simp only [List.cons_append, parse_tree_lines, if_neg h0, h4, if_pos rfl,
                hgt] at h ⊢
              exact ih m store st₂ ys (aT ++ [c]) aB res st' h
          · by_cases hty' : ty = "blob"
            · subst hty'
              simp only [List.cons_append, parse_tree_lines, if_neg h0, h4, hty, if_neg,
                ite_false, if_pos rfl] at h ⊢
              exact ih m store _ ys aT (aB ++ [c]) res st' h
            · simp only [List.cons_append, parse_tree_lines, if_neg h0, h4, if_neg hty,
                if_neg hty'] at h ⊢
              exact ih m store st ys aT aB res st' h

/-- A successful entry-loop run over `xs` had fuel exceeding the number of
lines (one unit is spent per line, one on the final empty-list step). -/
theorem parse_tree_lines_ok_fuel : ∀ (xs : List String) (n : Nat) (store : Store) (st : St)
    (aT aB : List String) (res : List String × List String) (st' : St),
    parse_tree_lines n store st xs aT aB = (.ok res, st') → xs.length + 1 ≤ n := by
  intro xs
  induction xs with
  | nil =>
    intro n store st aT aB res st' h
    match n with
    | 0 => simp [parse_tree_lines] at h
    | m + 1 => simp
  | cons x xt ih =>
    intro n store st aT aB res st' h
    match n with
    | 0 => simp [parse_tree_lines] at h
    | m + 1 =>
      have hrec : xt.length + 1 ≤ m := by
        by_cases h0 : x = ""
        · simp only [parse_tree_lines, if_pos h0] at h
          exact ih m store st aT aB res st' h
        · rcases h4 : entry4? x with _ | ⟨m4, ty, c, nm⟩
          · simp [parse_tree_lines, h0, h4] at h
          · by_cases hty : ty = "tree"
            · subst hty
              rcases hgt : get_tree m store st c nm with ⟨e | v, st₂⟩
              · simp [parse_tree_lines, h0, h4, hgt] at h
              · simp only [parse_tree_lines, if_neg h0, h4, if_pos rfl, hgt] at h
                exact ih m store st₂ (aT ++ [c]) aB res st' h
            · by_cases hty' : ty = "blob"
              · subst hty'
                simp only [parse_tree_lines, if_neg h0, h4, hty, if_neg, ite_false,
                  if_pos rfl] at h
                exact ih m store _ aT (aB ++ [c]) res st' h
              · simp only [parse_tree_lines, if_neg h0, h4, if_neg hty, if_neg hty'] at h
                exact ih m store st aT aB res st' h
      simp only [List.length_cons]
      omega

/-- When the lines before the first bad one are all processed successfully —
in particular every earlier `tree`-typed entry resolves — the raised error is
exactly `malformedTreeEntry`, in the state reached after the prefix. -/
theorem parse_tree_lines_first_bad (pre : List String) (n : Nat) (store : Store) (st : St)
    (l : String) (post : List String) (aT aB : List String)
    (res : List String × List String) (st' : St)
    (hpre : parse_tree_lines n store st pre aT aB = (.ok res, st'))
    (h0 : l ≠ "") (h4 : entry4? l = none) :
    parse_tree_lines n store st (pre ++ l :: post) aT aB =
      (.error .malformedTreeEntry, st') := by
  have hfuel := parse_tree_lines_ok_fuel pre n store st aT aB res st' hpre
  rw [parse_tree_lines_append pre n store st (l :: post) aT aB res st' hpre]
  obtain ⟨m, hm⟩ : ∃ m, n - pre.length = m + 1 := ⟨n - pre.length - 1, by omega⟩
  rw [hm]
  simp [parse_tree_lines, h0, h4]

/-- C4 counterexample: as stated the claim is false — when an *earlier*
`tree`-typed entry of the same record fails to resolve, `parse_tree` raises
`ObjectNotFound`, not `MalformedTreeEntry`, even though the record contains a
three-token line. -/
theorem malformed_tree_entry_cex :
    ((parse_tree 5 [] St.new "t" "/" "100644 tree sub x\nbad three tokens").1 =
      .error (.objectNotFound "sub"))
    ∧ (Err.objectNotFound "sub" ≠ .malformedTreeEntry) :=
  ⟨by decide, by decide⟩

/-- C4 (amended): a tree record containing a non-empty line that does not
decompose into exactly four fields never parses successfully, and the run
aborts before any call to the rendering sink; the failure is
`MalformedTreeEntry` whenever no earlier `tree`-typed entry of the record
fails its recursive resolution first — formalised as: whenever the lines
before the bad one are all processed successfully (earlier tree entries,
resolving or already cached, are allowed; an earlier *failing* entry may
surface `ObjectNotFound` instead); entry types other than `tree` and `blob`
in well-formed four-field lines are silently ignored. -/
theorem malformed_tree_entry_aborts :
    (∀ (n : Nat) (store : Store) (st : St) (h name content : String) (tr : Tree) (st' : St),
        (∃ l ∈ splitLines content, l ≠ "" ∧ entry4? l = none) →
        parse_tree n store st h name content ≠ (.ok tr, st'))
    ∧ (∀ (pre : List String) (n : Nat) (store : Store) (st : St) (l : String)
        (post : List String) (aT aB : List String) (res : List String × List String)
        (st' : St),
        parse_tree_lines n store st pre aT aB = (.ok res, st') →
        l ≠ "" → entry4? l = none →
        parse_tree_lines n store st (pre ++ l :: post) aT aB =
          (.error .malformedTreeEntry, st'))
    ∧ (∀ (n : Nat) (store : Store) (st : St) (l : String) (rest : List String)
        (aT aB : List String) (m ty c nm : String),
        entry4? l = some (m, ty, c, nm) → ty ≠ "tree" → ty ≠ "blob" →
        parse_tree_lines (n + 1) store st (l :: rest) aT aB =
          parse_tree_lines n store st rest aT aB)
    ∧ ((gitGraphMain 10 [("c1", "tree t1"), ("t1", "100644 blob b1 f.txt\nbad line x")]
        [("main", "c1")]).1.1 = .error .malformedTreeEntry)
    ∧ ((gitGraphMain 10 [("c1", "tree t1"), ("t1", "100644 blob b1 f.txt\nbad line x")]
        [("main", "c1")]).2 = false) := by
  refine ⟨?_, parse_tree_lines_first_bad, ?_, by decide, by decide⟩
  · intro n store st h name content tr st' hbad heq
    match n, heq with
    | n + 1, heq =>
      obtain ⟨e, he⟩ := parse_tree_lines_bad_no_ok n store st (splitLines content) [] [] hbad
      rcases hptl : parse_tree_lines n store st (splitLines content) [] [] with ⟨r, st₂⟩
      rw [hptl] at he
      simp only at he
      subst he
      simp [parse_tree, hptl] at heq
  · intro n store st l rest aT aB m ty c nm h4 hty hty'
    have h0 : l ≠ "" := by
      intro h; subst h; rw [show entry4? "" = none from rfl] at h4; cases h4
    simp [parse_tree_lines, h0, h4, hty, hty']

/-- Witness for C4's amended theorem: a record whose first entry is a
`tree`-typed entry that resolves *successfully* (`sub` is in the store),
followed by a three-token line, fails with exactly `MalformedTreeEntry` in
the state reached after resolving `sub`; and a `commit`-typed (submodule)
entry is skipped. -/
theorem malformed_tree_entry_aborts_witness :
    (parse_tree_lines 6 [("sub", "")] St.new ["100644 tree sub x", "x y z"] [] [] =
      (.error .malformedTreeEntry,
        ⟨[("sub", .tree ⟨"sub", "x", [], []⟩)], [], [], [], [], [], [], ["sub"], []⟩))
    ∧ (parse_tree_lines 1 [] St.new ["160000 commit s path"] [] [] =
        parse_tree_lines 0 [] St.new [] [] []) :=
  ⟨malformed_tree_entry_aborts.2.1 ["100644 tree sub x"] 6 [("sub", "")] St.new "x y z" []
      [] [] (["sub"], [])
      ⟨[("sub", .tree ⟨"sub", "x", [], []⟩)], [], [], [], [], [], [], ["sub"], []⟩
      (by decide) (by decide) (by decide),
    malformed_tree_entry_aborts.2.2.1 0 [] St.new "160000 commit s path" [] [] []
      "160000" "commit" "s" "path" (by decide) (by decide) (by decide)⟩

/-! ## Claim theorems: ObjectNotFound propagation, no negative caching (C8) -/

/-- C8: when the fetch capability reports a missing hash, `get_commit` raises
`ObjectNotFound` and mutates nothing but the fetch log — in particular no
negative result is cached — so resolving the same hash again invokes the
fetch capability a second time; the failure also propagates through
`traverse_history` to the caller. -/
theorem object_not_found_no_negative_cache (n m : Nat) (store : Store) (st : St)
    (h : String) (visited : List String) (hstore : lookupA store h = none)
    (hcache : lookupA st.cache h = none) (hvis : h ∉ visited) :
    (get_commit (n + 1) store st h =
      (.error (.objectNotFound h), { st with fetchLog := st.fetchLog ++ [h] }))
    ∧ ((get_commit (n + 1) store st h).2.cache = st.cache)
    ∧ (get_commit (m + 1) store (get_commit (n + 1) store st h).2 h =
        (.error (.objectNotFound h),
          { st with fetchLog := st.fetchLog ++ [h] ++ [h] }))
    ∧ ((traverse_history (n + 2) store st visited h).1 = .error (.objectNotFound h)) := by
  have hmain : ∀ (k : Nat) (s : St), lookupA s.cache h = none →
      get_commit (k + 1) store s h =
        (.error (.objectNotFound h), { s with fetchLog := s.fetchLog ++ [h] }) := by
    intro k s hc
    simp [get_commit, hc, git_cat_file, hstore]
  refine ⟨hmain n st hcache, ?_, ?_, ?_⟩
  · rw [hmain n st hcache]
  · rw [hmain n st hcache]
    exact hmain m _ hcache
  · have : get_commit (n + 1) store { st with walkLog := st.walkLog ++ [h] } h =
        (.error (.objectNotFound h),
          { st with walkLog := st.walkLog ++ [h], fetchLog := st.fetchLog ++ [h] }) :=
      hmain n _ hcache
    simp [traverse_history, hvis, this]

/-- Witness for C8 at a store lacking the hash `"z"`. -/
theorem object_not_found_no_negative_cache_witness :
    (get_commit 1 [("x", "y")] St.new "z" =
      (.error (.objectNotFound "z"), { St.new with fetchLog := ["z"] }))
    ∧ ((get_commit 1 [("x", "y")] St.new "z").2.cache = St.new.cache)
    ∧ (get_commit 1 [("x", "y")] (get_commit 1 [("x", "y")] St.new "z").2 "z" =
        (.error (.objectNotFound "z"), { St.new with fetchLog := ["z", "z"] }))
    ∧ ((traverse_history 2 [("x", "y")] St.new [] "z").1 = .error (.objectNotFound "z")) :=
  object_not_found_no_negative_cache 0 0 [("x", "y")] St.new "z" []
    (by decide) (by decide) (by decide)

/-! ## Claim theorems: visited set shared across runs (C6)

In Python the default value of `traverse_history`'s `visited` parameter is a
single set object created when the function is defined, so it persists
across every top-level call in the process — including the traversal run of
a *second, freshly constructed* `GitRepo` instance. The second run therefore
does not start with an empty visited set, and skips the ancestry (and the
parent edges) of any commit visited by the first run, even though its cache
and indices are fresh. -/

set_option maxHeartbeats 1000000 in
/-- C6 evaluation at the failing input, over the store
`c0 ↦ "tree t0"`, `c1 ↦ "tree t0\nparent c0"`, `t0 ↦ ""`: a first run over
branch `main → c0` leaves `visited = ["c0"]`; a second run on a freshly
constructed `GitRepo` (empty cache and indices) over branch `dev → c1`
inherits that visited set, so it skips walking the ancestry of the shared
commit `c0` entirely — its walk log is just `["c1"]` and its commit→tree
index has no entry for `c0` — whereas a traversal of `c0` that starts with
the empty visited set the claim asserts does walk it. -/
theorem visited_set_shared_across_runs :
    ((parse_dot_git_dir 7 [("c0", "tree t0"), ("c1", "tree t0\nparent c0"), ("t0", "")]
        St.new [] [("main", "c0")]).2.2 = ["c0"])
    ∧ ((parse_dot_git_dir 7 [("c0", "tree t0"), ("c1", "tree t0\nparent c0"), ("t0", "")]
        St.new ["c0"] [("dev", "c1")]).2.1.walkLog = ["c1"])
    ∧ ((parse_dot_git_dir 7 [("c0", "tree t0"), ("c1", "tree t0\nparent c0"), ("t0", "")]
        St.new ["c0"] [("dev", "c1")]).2.1.commit_to_tree = [("c1", "t0")])
    ∧ ((traverse_history 7 [("c0", "tree t0"), ("c1", "tree t0\nparent c0"), ("t0", "")]
        St.new [] "c0").2.1.walkLog = ["c0"]) := by
  exact ⟨by decide, by decide, by decide, by decide⟩

/-! ## State-preservation through the resolution layer -/

/-- What a single resolution step preserves: cache keys only grow by store
keys, distinctness of cache keys is kept, and the walk log is untouched. -/
def GPres (store : Store) (st st' : St) : Prop :=
  (∀ k, k ∈ keysA st'.cache → k ∈ keysA st.cache ∨ k ∈ keysA store)
  ∧ ((keysA st.cache).Nodup → (keysA st'.cache).Nodup)
  ∧ st'.walkLog = st.walkLog

theorem gpres_rfl {store : Store} {st : St} : GPres store st st :=
  ⟨fun _ hk => Or.inl hk, id, rfl⟩

theorem gpres_trans {store : Store} {st₁ st₂ st₃ : St} (h1 : GPres store st₁ st₂)
    (h2 : GPres store st₂ st₃) : GPres store st₁ st₃ :=
  ⟨fun k hk => (h2.1 k hk).elim (fun hh => h1.1 k hh) Or.inr,
    fun hn => h2.2.1 (h1.2.1 hn), h2.2.2.trans h1.2.2⟩

theorem gpres_same {store : Store} {st st' : St} (hc : st'.cache = st.cache)
    (hw : st'.walkLog = st.walkLog) : GPres store st st' :=
  ⟨fun k hk => Or.inl (by rw [hc] at hk; exact hk), fun hn => by rw [hc]; exact hn, hw⟩

theorem gpres_setA_cache {store : Store} {st : St} {h : String} {o : Obj}
    (hmem : h ∈ keysA store) : GPres store st { st with cache := setA st.cache h o } := by
  refine ⟨fun k hk => ?_, fun hn => keysA_setA_nodup _ _ _ hn, rfl⟩
  rcases mem_keysA_setA st.cache h o k hk with hk' | hk'
  · exact Or.inr (hk' ▸ hmem)
  · exact Or.inl hk'

theorem git_cat_file_state (store : Store) (st : St) (h : String) :
    (git_cat_file store st h).2 = { st with fetchLog := st.fetchLog ++ [h] } := by
  unfold git_cat_file
  cases lookupA store h <;> rfl

theorem git_cat_file_ok_mem (store : Store) (st : St) (h content : String) (st₁ : St)
    (heq : git_cat_file store st h = (.ok content, st₁)) : h ∈ keysA store := by
  unfold git_cat_file at heq
  rcases hl : lookupA store h with _ | c
  · rw [hl] at heq; cases heq
  · exact mem_keysA_of_lookupA store h c hl

theorem gpres_git_cat_file {store : Store} {st : St} {h : String} {r : Except Err String}
    {st₁ : St} (heq : git_cat_file store st h = (r, st₁)) : GPres store st st₁ := by
  have : st₁ = { st with fetchLog := st.fetchLog ++ [h] } := by
    rw [← git_cat_file_state store st h, heq]
  exact gpres_same (by rw [this]) (by rw [this])

theorem foldl_blobs_fields (h : String) (cs : List String) : ∀ st : St,
    ((cs.foldl (fun s c => { s with tree_to_blobs := add_to_multimap s.tree_to_blobs h c })
      st).cache = st.cache)
    ∧ ((cs.foldl (fun s c => { s with tree_to_blobs := add_to_multimap s.tree_to_blobs h c })
      st).walkLog = st.walkLog) := by
  induction cs with
  | nil => intro st; exact ⟨rfl, rfl⟩
  | cons c rest ih =>
    intro st
    simpa using ih { st with tree_to_blobs := add_to_multimap st.tree_to_blobs h c }

theorem foldl_trees_fields (h : String) (cs : List String) : ∀ st : St,
    ((cs.foldl (fun s c => { s with tree_to_trees := add_to_multimap s.tree_to_trees h c })
      st).cache = st.cache)
    ∧ ((cs.foldl (fun s c => { s with tree_to_trees := add_to_multimap s.tree_to_trees h c })
      st).walkLog = st.walkLog) := by
  induction cs with
  | nil => intro st; exact ⟨rfl, rfl⟩
  | cons c rest ih =>
    intro st
    simpa using ih { st with tree_to_trees := add_to_multimap st.tree_to_trees h c }

/-- Joint preservation lemma for the whole resolution layer. -/
theorem gpres_run : ∀ n : Nat,
    (∀ store st h name, GPres store st (get_tree n store st h name).2)
    ∧ (∀ store st h name content, GPres store st (parse_tree n store st h name content).2)
    ∧ (∀ store st lines aT aB, GPres store st (parse_tree_lines n store st lines aT aB).2)
    ∧ (∀ store st h, GPres store st (get_commit n store st h).2) := by
  intro n
  induction n with
  | zero => exact ⟨fun _ _ _ _ => gpres_rfl, fun _ _ _ _ _ => gpres_rfl,
      fun _ _ _ _ _ => gpres_rfl, fun _ _ _ => gpres_rfl⟩
  | succ n ih =>
    obtain ⟨ihT, ihP, ihL, ihC⟩ := ih
    refine ⟨?_, ?_, ?_, ?_⟩
    · -- get_tree
      intro store st h name
      simp only [get_tree]
      split
      · exact gpres_rfl
      · split
        · next e st₁ heq => exact gpres_git_cat_file heq
        · next content st₁ heq =>
          have hg1 : GPres store st st₁ := gpres_git_cat_file heq
          have hmem : h ∈ keysA store := git_cat_file_ok_mem store st h content st₁ heq
          split
          · next e st₂ heq₂ =>
            refine gpres_trans hg1 ?_
            have := ihP store st₁ h name content
            rw [heq₂] at this
            exact this
          · next tr st₂ heq₂ =>
            have hg2 : GPres store st₁ st₂ := by
              have := ihP store st₁ h name content
              rw [heq₂] at this
              exact this
            refine gpres_trans hg1 (gpres_trans hg2 ?_)
            have hb := foldl_blobs_fields h tr.blobs st₂
            have ht := foldl_trees_fields h tr.trees
              (tr.blobs.foldl
                (fun s c => { s with tree_to_blobs := add_to_multimap s.tree_to_blobs h c }) st₂)
            have hg3 : GPres store st₂
                (tr.trees.foldl
                  (fun s c => { s with tree_to_trees := add_to_multimap s.tree_to_trees h c })
                  (tr.blobs.foldl
                    (fun s c => { s with tree_to_blobs := add_to_multimap s.tree_to_blobs h c })
                    st₂)) :=
              gpres_same (by rw [ht.1, hb.1]) (by rw [ht.2, hb.2])
            refine gpres_trans hg3 ?_
            split
            · exact gpres_setA_cache hmem
            · exact gpres_setA_cache hmem
    · -- parse_tree
      intro store st h name content
      simp only [parse_tree]
      split
      · next e st₁ heq =>
        have := ihL store st (splitLines content) [] []
        rw [heq] at this
        exact this
      · next res st₁ heq =>
        have := ihL store st (splitLines content) [] []
        rw [heq] at this
        exact this
    · -- parse_tree_lines
      intro store st lines aT aB
      simp only [parse_tree_lines]
      split
      · exact gpres_rfl
      · next l rest =>
        split
        · exact ihL store st rest aT aB
        · split
          · next ty c nm heq4 =>
            split
            · split
              · next e st₁ heq =>
                have := ihT store st c nm
                rw [heq] at this
                exact this
              · next v st₁ heq =>
                have h1 : GPres store st st₁ := by
                  have := ihT store st c nm
                  rw [heq] at this
                  exact this
                exact gpres_trans h1 (ihL store st₁ rest (aT ++ [c]) aB)
            · split
              · exact gpres_trans (gpres_same rfl rfl)
                  (ihL store { st with blobs := setA st.blobs c ⟨c, nm⟩ } rest aT (aB ++ [c]))
              · exact ihL store st rest aT aB
          · exact gpres_rfl
    · -- get_commit
      intro store st h
      simp only [get_commit]
      split
      · exact gpres_rfl
      · split
        · next e st₁ heq => exact gpres_git_cat_file heq
        · next content st₁ heq =>
          have hg1 : GPres store st st₁ := gpres_git_cat_file heq
          have hmem : h ∈ keysA store := git_cat_file_ok_mem store st h content st₁ heq
          have hg2 : GPres store st₁
              { st₁ with cache := setA st₁.cache h (.commit (parse_commit h content)) } :=
            gpres_setA_cache hmem
          have hstep : ∀ (t : String) (s : St) (r : Except Err Obj) (s' : St),
              get_tree n store s t "/" = (r, s') → GPres store s s' := by
            intro t s r s' heq'
            have := ihT store s t "/"
            rw [heq'] at this
            exact this
          split
          · exact gpres_trans hg1 (gpres_trans hg2 (gpres_same rfl rfl))
          · next t heqt =>
            split
            · next e st₂ heq₂ =>
              exact gpres_trans hg1 (gpres_trans hg2 (hstep t _ _ _ heq₂))
            · next tv st₂ heq₂ =>
              refine gpres_trans hg1 (gpres_trans hg2 (gpres_trans (hstep t _ _ _ heq₂) ?_))
              split
              · exact gpres_same rfl rfl
              · exact gpres_same rfl rfl

/-! ## Claim theorems: idempotent resolution (C2) -/

/-- A successful `get_commit` returns exactly the cache entry of its final
state (the code literally returns `self.cache[hash]`). -/
theorem get_commit_ok_lookup : ∀ (n : Nat) (store : Store) (st : St) (h : String) (v : Obj)
    (st' : St), get_commit n store st h = (.ok v, st') → lookupA st'.cache h = some v := by
  intro n store st h v st' heq
  match n with
  | 0 => simp [get_commit] at heq
  | n + 1 =>
    simp only [get_commit] at heq
    split at heq
    · next obj hobj =>
      simp only [Prod.mk.injEq, Except.ok.injEq] at heq
      obtain ⟨rfl, rfl⟩ := heq
      exact hobj
    · split at heq
      · simp at heq
      · next content st₁ hfetch =>
        split at heq
        · simp at heq
        · next t htree =>
          split at heq
          · simp at heq
          · next tv st₂ hgt =>
            split at heq
            · next obj hobj =>
              simp only [Prod.mk.injEq, Except.ok.injEq] at heq
              obtain ⟨rfl, rfl⟩ := heq
              exact hobj
            · simp at heq

/-- Same for `get_tree`. -/
theorem get_tree_ok_lookup : ∀ (n : Nat) (store : Store) (st : St) (h name : String) (v : Obj)
    (st' : St), get_tree n store st h name = (.ok v, st') → lookupA st'.cache h = some v := by
  intro n store st h name v st' heq
  match n with
  | 0 => simp [get_tree] at heq
  | n + 1 =>
    simp only [get_tree] at heq
    split at heq
    · next obj hobj =>
      simp only [Prod.mk.injEq, Except.ok.injEq] at heq
      obtain ⟨rfl, rfl⟩ := heq
      exact hobj
    · split at heq
      · simp at heq
      · next content st₁ hfetch =>
        split at heq
        · simp at heq
        · next tr st₂ hpt =>
          split at heq
          · next obj hobj =>
            simp only [Prod.mk.injEq, Except.ok.injEq] at heq
            obtain ⟨rfl, rfl⟩ := heq
            exact hobj
          · simp at heq

/-- C2: resolution is idempotent. After a successful `get_commit`
(resp. `get_tree`) returning `v` in state `st'`, calling it again — with any
positive fuel, and for `get_tree` any display name — returns the identical
value `v` and the identical state `st'` (in particular the fetch log is
unchanged: the fetch capability is not invoked again). Moreover both
operations preserve distinctness of the cache's keys, so the cache holds at
most one entry per hash. -/
theorem idempotent_resolution :
    (∀ (n m : Nat) (store : Store) (st : St) (h : String) (v : Obj) (st' : St),
        get_commit n store st h = (.ok v, st') →
        get_commit (m + 1) store st' h = (.ok v, st'))
    ∧ (∀ (n m : Nat) (store : Store) (st : St) (h name name' : String) (v : Obj) (st' : St),
        get_tree n store st h name = (.ok v, st') →
        get_tree (m + 1) store st' h name' = (.ok v, st'))
    ∧ (∀ (n : Nat) (store : Store) (st : St) (h : String),
        (keysA st.cache).Nodup → (keysA (get_commit n store st h).2.cache).Nodup)
    ∧ (∀ (n : Nat) (store : Store) (st : St) (h name : String),
        (keysA st.cache).Nodup → (keysA (get_tree n store st h name).2.cache).Nodup) := by
  refine ⟨?_, ?_, ?_, ?_⟩
  · intro n m store st h v st' heq
    have hl := get_commit_ok_lookup n store st h v st' heq
    simp [get_commit, hl]
  · intro n m store st h name name' v st' heq
    have hl := get_tree_ok_lookup n store st h name v st' heq
    simp [get_tree, hl]
  · intro n store st h hn
    exact ((gpres_run n).2.2.2 store st h).2.1 hn
  · intro n store st h name hn
    exact ((gpres_run n).1 store st h name).2.1 hn

/-- Witness for C2: a concrete resolution of `"c0"`, re-run from its own
final state, returns the identical commit and the identical state. -/
theorem idempotent_resolution_witness :
    (get_commit 1 [("c0", "tree t1"), ("t1", "")]
        ⟨[("c0", .commit ⟨"c0", some "t1", []⟩), ("t1", .tree ⟨"t1", "/", [], []⟩)],
          [], [], [("c0", "t1")], [], [], [], ["c0", "t1"], []⟩ "c0" =
      (.ok (.commit ⟨"c0", some "t1", []⟩),
        ⟨[("c0", .commit ⟨"c0", some "t1", []⟩), ("t1", .tree ⟨"t1", "/", [], []⟩)],
          [], [], [("c0", "t1")], [], [], [], ["c0", "t1"], []⟩))
    ∧ (keysA (get_commit 5 [("c0", "tree t1"), ("t1", "")] St.new "c0").2.cache).Nodup :=
  ⟨idempotent_resolution.1 5 0 [("c0", "tree t1"), ("t1", "")] St.new "c0"
      (.commit ⟨"c0", some "t1", []⟩)
      ⟨[("c0", .commit ⟨"c0", some "t1", []⟩), ("t1", .tree ⟨"t1", "/", [], []⟩)],
        [], [], [("c0", "t1")], [], [], [], ["c0", "t1"], []⟩ (by decide),
    idempotent_resolution.2.2.1 5 [("c0", "tree t1"), ("t1", "")] St.new "c0" (by decide)⟩

/-! ## Termination machinery for the traversal (C1)

The fuel parameter is an artifact of the embedding; the script's walk
terminates because (a) the visited set bounds the commit-level recursion by
the number of store entries, and (b) tree references in a content-addressed
store cannot form cycles — captured below by a height function on hashes
that strictly drops along the subtree-reference relation. The lemmas in this
section compute explicit sufficient fuel. -/

/-- `c` is referenced as a `tree`-typed child from the record stored under
`h`. -/
def treeRel (store : Store) (c h : String) : Prop :=
  ∃ content, lookupA store h = some content ∧
    c ∈ (splitLines content).filterMap treeEntryTok

theorem lookupA_setA {α : Type} (m : List (String × α)) (k : String) (v : α) (k' : String) :
    lookupA (setA m k v) k' = if k = k' then some v else lookupA m k' := by
  induction m with
  | nil => simp [setA, lookupA]
  | cons p rest ih =>
    obtain ⟨kh, vh⟩ := p
    by_cases hk : kh = k
    · subst hk
      by_cases hk' : kh = k'
      · simp [setA, lookupA, hk']
      · simp [setA, lookupA, hk', ih]
    · by_cases hk' : kh = k'
      · subst hk'
        have hk2 : ¬k = kh := fun e => hk e.symm
        simp [setA, hk, lookupA, hk2]
      · simp [setA, hk, lookupA, hk', ih]

theorem git_cat_file_ok_store (store : Store) (st : St) (h content : String) (st₁ : St)
    (heq : git_cat_file store st h = (.ok content, st₁)) : lookupA store h = some content := by
  unfold git_cat_file at heq
  rcases hl : lookupA store h with _ | c
  · rw [hl] at heq; cases heq
  · rw [hl] at heq
    simp only [Prod.mk.injEq, Except.ok.injEq] at heq
    rw [heq.1]

theorem git_cat_file_err (store : Store) (st : St) (h : String) (e : Err) (st₁ : St)
    (heq : git_cat_file store st h = (.error e, st₁)) : e = .objectNotFound h := by
  unfold git_cat_file at heq
  rcases hl : lookupA store h with _ | c
  · rw [hl] at heq
    simp only [Prod.mk.injEq, Except.error.injEq] at heq
    rw [heq.1]
  · rw [hl] at heq; cases heq

/-- Generic bound: any store entry's measure is at most the `foldr max` of
the measure over the store. -/
theorem foldr_max_bound (g : String × String → Nat) (store : Store) (h c : String)
    (hl : lookupA store h = some c) :
    g (h, c) ≤ store.foldr (fun p acc => max (g p) acc) 0 := by
  induction store with
  | nil => simp [lookupA] at hl
  | cons p rest ih =>
    obtain ⟨k, v⟩ := p
    by_cases hk : k = h
    · subst hk
      simp only [lookupA, if_pos, Option.some.injEq] at hl
      subst hl
      simp [List.foldr_cons, le_max_iff]
    · simp only [lookupA, if_neg hk] at hl
      simp only [List.foldr_cons, le_max_iff]
      exact Or.inr (ih hl)

/-- One more than the largest line count of any record in the store. -/
def maxLines (store : Store) : Nat :=
  store.foldr (fun p acc => max (splitLines p.2).length acc) 0

theorem lines_le_maxLines (store : Store) (h content : String)
    (hl : lookupA store h = some content) :
    (splitLines content).length ≤ maxLines store :=
  foldr_max_bound (fun p => (splitLines p.2).length) store h content hl

/-- The largest height (under a given measure `f`) of any tree hash named by
a `tree` header line of a record in the store. -/
def maxTreeHeight (f : String → Nat) (store : Store) : Nat :=
  store.foldr (fun p acc => max (f (((parse_commit p.1 p.2).tree).getD "")) acc) 0

theorem parse_commit_tree_hash_free (h h' content : String) :
    (parse_commit h content).tree = (parse_commit h' content).tree := rfl

theorem tree_height_le (f : String → Nat) (store : Store) (h content t : String)
    (hl : lookupA store h = some content) (ht : (parse_commit h content).tree = some t) :
    f t ≤ maxTreeHeight f store := by
  have := foldr_max_bound (fun p => f (((parse_commit p.1 p.2).tree).getD "")) store h content hl
  have h2 : f (((parse_commit h content).tree).getD "") ≤ maxTreeHeight f store := by
    simpa [maxTreeHeight] using this
  rw [ht] at h2
  simpa using h2

theorem parse_commit_parents_le (h content : String) :
    (parse_commit h content).parents.length ≤ (splitLines content).length := by
  have : (parse_commit h content).parents = (splitLines content).filterMap parentTok := by
    simp [parse_commit, parse_commit_lines_eq]
  rw [this]
  exact List.length_filterMap_le _ _

/-! ### The unvisited measure -/

theorem length_filter_le_of_imp {α : Type} (l : List α) (p q : α → Bool)
    (himp : ∀ a, q a = true → p a = true) :
    (l.filter q).length ≤ (l.filter p).length := by
  induction l with
  | nil => simp
  | cons a t ih =>
    by_cases hq : q a = true
    · simp [List.filter_cons, hq, himp a hq, Nat.succ_le_succ ih]
    · have hq' : q a = false := by simpa using hq
      by_cases hp : p a = true
      · simp only [List.filter_cons, hq', hp, if_true, if_false, Bool.false_eq_true,
          List.length_cons]
        omega
      · have hp' : p a = false := by simpa using hp
        simp [List.filter_cons, hq', hp', ih]

theorem length_filter_lt_of_imp {α : Type} (l : List α) (p q : α → Bool)
    (himp : ∀ a, q a = true → p a = true) (a : α) (ha : a ∈ l) (hpa : p a = true)
    (hqa : q a = false) : (l.filter q).length < (l.filter p).length := by
  induction l with
  | nil => simp at ha
  | cons b t ih =>
    rw [List.mem_cons] at ha
    rcases ha with rfl | hat
    · have hle := length_filter_le_of_imp t p q himp
      simp only [List.filter_cons, hqa, hpa, if_true, Bool.false_eq_true, if_false,
        List.length_cons]
      omega
    · by_cases hqb : q b = true
      · simp [List.filter_cons, hqb, himp b hqb, Nat.succ_lt_succ (ih hat)]
      · have hqb' : q b = false := by simpa using hqb
        have hlt := ih hat
        by_cases hpb : p b = true
        · simp only [List.filter_cons, hqb', hpb, if_true, Bool.false_eq_true, if_false,
            List.length_cons]
          omega
        · have hpb' : p b = false := by simpa using hpb
          simp [List.filter_cons, hqb', hpb', hlt]

/-- Number of store hashes not yet visited: the measure of the commit walk. -/
def unvisited (store : Store) (v : List String) : Nat :=
  ((keysA store).filter (fun k => decide (k ∉ v))).length

theorem unvisited_anti (store : Store) (v v' : List String) (hsub : ∀ x ∈ v, x ∈ v') :
    unvisited store v' ≤ unvisited store v := by
  apply length_filter_le_of_imp
  intro a ha
  simp only [decide_eq_true_eq] at ha ⊢
  intro hmem
  exact ha (hsub a hmem)

theorem unvisited_strict (store : Store) (v : List String) (h : String)
    (hmem : h ∈ keysA store) (hnv : h ∉ v) :
    unvisited store (h :: v) < unvisited store v := by
  apply length_filter_lt_of_imp (keysA store) (fun k => decide (k ∉ v))
    (fun k => decide (k ∉ h :: v)) ?_ h hmem ?_ ?_
  · intro a ha
    simp only [decide_eq_true_eq, List.mem_cons, not_or] at ha ⊢
    exact ha.2
  · simpa using hnv
  · simp

theorem unvisited_pos (store : Store) (v : List String) (h : String)
    (hmem : h ∈ keysA store) (hnv : h ∉ v) : 1 ≤ unvisited store v := by
  have := unvisited_strict store v h hmem hnv
  omega

/-! ### Commit cache entries are parses of store records -/

/-- Every commit object in the cache is the parse of the store record of its
hash. Holds from the fresh state on because `get_commit` caches exactly
`parse_commit h content` right after a successful fetch of `h`. -/
def CacheGood (store : Store) (st : St) : Prop :=
  ∀ k c, lookupA st.cache k = some (.commit c) →
    ∃ content, lookupA store k = some content ∧ c = parse_commit k content

theorem cacheGood_new (store : Store) : CacheGood store St.new := by
  intro k c hk
  simp [St.new, lookupA] at hk

theorem cacheGood_insert_commit {store : Store} {st : St} {h content : String}
    (hstore : lookupA store h = some content) (hcg : CacheGood store st) :
    CacheGood store { st with cache := setA st.cache h (.commit (parse_commit h content)) } := by
  intro k c hk
  simp only [lookupA_setA] at hk
  by_cases hkh : h = k
  · subst hkh
    rw [if_pos rfl] at hk
    simp only [Option.some.injEq, Obj.commit.injEq] at hk
    exact ⟨content, hstore, hk.symm⟩
  · rw [if_neg hkh] at hk
    exact hcg k c hk

theorem cacheGood_insert_tree {store : Store} {st : St} {h : String} {tr : Tree}
    (hcg : CacheGood store st) :
    CacheGood store { st with cache := setA st.cache h (.tree tr) } := by
  intro k c hk
  simp only [lookupA_setA] at hk
  by_cases hkh : h = k
  · subst hkh
    rw [if_pos rfl] at hk
    cases hk
  · rw [if_neg hkh] at hk
    exact hcg k c hk

theorem cacheGood_same_cache {store : Store} {st st' : St} (hc : st'.cache = st.cache)
    (hcg : CacheGood store st) : CacheGood store st' := by
  intro k c hk
  rw [hc] at hk
  exact hcg k c hk

theorem cacheGood_git_cat_file {store : Store} {st : St} {h : String}
    {r : Except Err String} {st₁ : St} (heq : git_cat_file store st h = (r, st₁))
    (hcg : CacheGood store st) : CacheGood store st₁ := by
  refine cacheGood_same_cache ?_ hcg
  have : st₁ = { st with fetchLog := st.fetchLog ++ [h] } := by
    rw [← git_cat_file_state store st h, heq]
  rw [this]

/-- Joint `CacheGood` preservation for the resolution layer. -/
theorem cacheGood_run : ∀ n : Nat,
    (∀ store st h name, CacheGood store st → CacheGood store (get_tree n store st h name).2)
    ∧ (∀ store st h name content, CacheGood store st →
        CacheGood store (parse_tree n store st h name content).2)
    ∧ (∀ store st lines aT aB, CacheGood store st →
        CacheGood store (parse_tree_lines n store st lines aT aB).2)
    ∧ (∀ store st h, CacheGood store st → CacheGood store (get_commit n store st h).2) := by
  intro n
  induction n with
  | zero => exact ⟨fun _ _ _ _ hcg => hcg, fun _ _ _ _ _ hcg => hcg,
      fun _ _ _ _ _ hcg => hcg, fun _ _ _ hcg => hcg⟩
  | succ n ih =>
    obtain ⟨ihT, ihP, ihL, ihC⟩ := ih
    refine ⟨?_, ?_, ?_, ?_⟩
    · -- get_tree
      intro store st h name hcg
      simp only [get_tree]
      split
      · exact hcg
      · split
        · next e st₁ heq => exact cacheGood_git_cat_file heq hcg
        · next content st₁ heq =>
          have hcg1 : CacheGood store st₁ := cacheGood_git_cat_file heq hcg
          split
          · next e st₂ heq₂ =>
            have := ihP store st₁ h name content hcg1
            rw [heq₂] at this
            exact this
          · next tr st₂ heq₂ =>
            have hcg2 : CacheGood store st₂ := by
              have := ihP store st₁ h name content hcg1
              rw [heq₂] at this
              exact this
            have hb := foldl_blobs_fields h tr.blobs st₂
            have ht := foldl_trees_fields h tr.trees
              (tr.blobs.foldl
                (fun s c => { s with tree_to_blobs := add_to_multimap s.tree_to_blobs h c }) st₂)
            have hcg3 : CacheGood store
                (tr.trees.foldl
                  (fun s c => { s with tree_to_trees := add_to_multimap s.tree_to_trees h c })
                  (tr.blobs.foldl
                    (fun s c => { s with tree_to_blobs := add_to_multimap s.tree_to_blobs h c })
                    st₂)) :=
              cacheGood_same_cache (by rw [ht.1, hb.1]) hcg2
            split
            · exact cacheGood_insert_tree hcg3
            · exact cacheGood_insert_tree hcg3
    · -- parse_tree
      intro store st h name content hcg
      simp only [parse_tree]
      split
      · next e st₁ heq =>
        have := ihL store st (splitLines content) [] [] hcg
        rw [heq] at this
        exact this
      · next res st₁ heq =>
        have := ihL store st (splitLines content) [] [] hcg
        rw [heq] at this
        exact this
    · -- parse_tree_lines
      intro store st lines aT aB hcg
      simp only [parse_tree_lines]
      split
      · exact hcg
      · next l rest =>
        split
        · exact ihL store st rest aT aB hcg
        · split
          · next ty c nm heq4 =>
            split
            · split
              · next e st₁ heq =>
                have := ihT store st c nm hcg
                rw [heq] at this
                exact this
              · next v st₁ heq =>
                have hcg1 : CacheGood store st₁ := by
                  have := ihT store st c nm hcg
                  rw [heq] at this
                  exact this
                exact ihL store st₁ rest (aT ++ [c]) aB hcg1
            · split
              · exact ihL store { st with blobs := setA st.blobs c ⟨c, nm⟩ } rest aT (aB ++ [c])
                  (cacheGood_same_cache rfl hcg)
              · exact ihL store st rest aT aB hcg
          · exact hcg
    · -- get_commit
      intro store st h hcg
      simp only [get_commit]
      split
      · exact hcg
      · split
        · next e st₁ heq => exact cacheGood_git_cat_file heq hcg
        · next content st₁ heq =>
          have hcg1 : CacheGood store st₁ := cacheGood_git_cat_file heq hcg
          have hstore : lookupA store h = some content :=
            git_cat_file_ok_store store st h content st₁ heq
          have hcg2 : CacheGood store
              { st₁ with cache := setA st₁.cache h (.commit (parse_commit h content)) } :=
            cacheGood_insert_commit hstore hcg1
          have hstep : ∀ (t : String) (s : St) (r : Except Err Obj) (s' : St),
              get_tree n store s t "/" = (r, s') → CacheGood store s → CacheGood store s' := by
            intro t s r s' heq' hc
            have := ihT store s t "/" hc
            rw [heq'] at this
            exact this
          split
          · exact cacheGood_same_cache rfl hcg2
          · next t heqt =>
            split
            · next e st₂ heq₂ => exact hstep t _ _ _ heq₂ hcg2
            · next tv st₂ heq₂ =>
              have hcg3 : CacheGood store st₂ := hstep t _ _ _ heq₂ hcg2
              split
              · exact cacheGood_same_cache rfl hcg3
              · exact cacheGood_same_cache rfl hcg3

/-! ### Preservation through the walk layer -/

/-- What a traversal step preserves: the visited set only grows, commit-cache
goodness is kept, and the walk log stays duplicate-free and inside the
visited set. -/
def TPres (store : Store) (st st' : St) (v v' : List String) : Prop :=
  (∀ x ∈ v, x ∈ v')
  ∧ (CacheGood store st → CacheGood store st')
  ∧ (st.walkLog.Nodup → (∀ x ∈ st.walkLog, x ∈ v) →
      st'.walkLog.Nodup ∧ ∀ x ∈ st'.walkLog, x ∈ v')

theorem tpres_rfl {store : Store} {st : St} {v : List String} : TPres store st st v v :=
  ⟨fun _ hx => hx, id, fun hn hs => ⟨hn, hs⟩⟩

theorem tpres_trans {store : Store} {st₁ st₂ st₃ : St} {v₁ v₂ v₃ : List String}
    (h1 : TPres store st₁ st₂ v₁ v₂) (h2 : TPres store st₂ st₃ v₂ v₃) :
    TPres store st₁ st₃ v₁ v₃ := by
  refine ⟨fun x hx => h2.1 x (h1.1 x hx), fun hcg => h2.2.1 (h1.2.1 hcg), ?_⟩
  intro hn hs
  obtain ⟨hn2, hs2⟩ := h1.2.2 hn hs
  exact h2.2.2 hn2 hs2

/-- A resolution-layer step (walk log untouched, visited untouched) is a
traversal step. -/
theorem tpres_resolution {store : Store} {st st' : St} {v : List String}
    (hw : st'.walkLog = st.walkLog) (hcg : CacheGood store st → CacheGood store st') :
    TPres store st st' v v := by
  refine ⟨fun _ hx => hx, hcg, ?_⟩
  intro hn hs
  rw [hw]
  exact ⟨hn, hs⟩

/-- Joint preservation for the walk layer. -/
theorem tpres_run : ∀ n : Nat,
    (∀ store st v h, TPres store st (traverse_history n store st v h).2.1 v
        (traverse_history n store st v h).2.2)
    ∧ (∀ store st v ch ps, TPres store st (traverse_parents n store st v ch ps).2.1 v
        (traverse_parents n store st v ch ps).2.2) := by
  intro n
  induction n with
  | zero => exact ⟨fun _ _ _ _ => tpres_rfl, fun _ _ _ _ _ => tpres_rfl⟩
  | succ n ih =>
    obtain ⟨ihTH, ihTP⟩ := ih
    have hres : ∀ (store : Store) (s : St) (h : String) (r : Except Err Obj) (s' : St)
        (v : List String), get_commit n store s h = (r, s') → TPres store s s' v v := by
      intro store s h r s' v heq
      have hg := (gpres_run n).2.2.2 store s h
      have hc := (cacheGood_run n).2.2.2 store s h
      rw [heq] at hg hc
      exact tpres_resolution hg.2.2 (fun hcg => hc hcg)
    refine ⟨?_, ?_⟩
    · intro store st v h
      simp only [traverse_history]
      split
      · exact tpres_rfl
      · next hnv =>
        have t1 : TPres store st { st with walkLog := st.walkLog ++ [h] } v (h :: v) := by
          refine ⟨fun x hx => by simp [hx], cacheGood_same_cache rfl, ?_⟩
          intro hn hs
          constructor
          · exact hn.append (List.nodup_singleton h)
              (fun x hx hxh => hnv ((List.mem_singleton.mp hxh) ▸ hs x hx))
          · intro x hx
            simp only [List.mem_append, List.mem_singleton] at hx
            rcases hx with hx | rfl
            · exact List.mem_cons_of_mem _ (hs x hx)
            · exact List.mem_cons_self _ _
        split
        · next e st₂ heq =>
          exact tpres_trans t1
            (hres store { st with walkLog := st.walkLog ++ [h] } h (.error e) st₂ (h :: v) heq)
        · next obj st₂ heq =>
          have t2 := hres store { st with walkLog := st.walkLog ++ [h] } h (.ok obj) st₂
            (h :: v) heq
          split
          · next c => exact tpres_trans t1 (tpres_trans t2 (ihTP store st₂ (h :: v) h c.parents))
          · exact tpres_trans t1 t2
    · intro store st v ch ps
      simp only [traverse_parents]
      split
      · exact tpres_rfl
      · next p rest =>
        have t1 : TPres store st
            { st with commit_to_parents := add_to_multimap st.commit_to_parents ch p } v v :=
          tpres_resolution rfl (cacheGood_same_cache rfl)
        split
        · next e st₂ v₂ heq =>
          have := ihTH store
            { st with commit_to_parents := add_to_multimap st.commit_to_parents ch p } v p
          rw [heq] at this
          exact tpres_trans t1 this
        · next st₂ v₂ heq =>
          have t2 := ihTH store
            { st with commit_to_parents := add_to_multimap st.commit_to_parents ch p } v p
          rw [heq] at t2
          exact tpres_trans t1 (tpres_trans t2 (ihTP store st₂ v₂ ch rest))

/-- Preservation through a whole `parse_dot_git_dir` run. -/
theorem tpres_pdgd : ∀ (branches : List (String × String)) (n : Nat) (store : Store)
    (st : St) (v : List String),
    TPres store st (parse_dot_git_dir n store st v branches).2.1 v
      (parse_dot_git_dir n store st v branches).2.2 := by
  intro branches
  induction branches with
  | nil => intro n store st v; exact tpres_rfl
  | cons b rest ih =>
    intro n store st v
    obtain ⟨name, commit⟩ := b
    simp only [parse_dot_git_dir]
    have t1 : TPres store st
        { st with branch_to_commit := setA st.branch_to_commit name commit } v v :=
      tpres_resolution rfl (cacheGood_same_cache rfl)
    split
    · next e st₂ v₂ heq =>
      have := (tpres_run n).1 store
        { st with branch_to_commit := setA st.branch_to_commit name commit } v commit
      rw [heq] at this
      exact tpres_trans t1 this
    · next st₂ v₂ heq =>
      have t2 := (tpres_run n).1 store
        { st with branch_to_commit := setA st.branch_to_commit name commit } v commit
      rw [heq] at t2
      exact tpres_trans t1 (tpres_trans t2 (ih n store st₂ v₂))

/-! ### Sufficient fuel -/

/-- Fuel sufficient for `get_tree` on a hash of tree-height at most `N`. -/
def GB (store : Store) : Nat → Nat
  | 0 => maxLines store + 3
  | N + 1 => GB store N + (maxLines store + 3)

theorem GB_ge (store : Store) (N : Nat) : maxLines store + 3 ≤ GB store N := by
  induction N with
  | zero => exact le_refl _
  | succ N ih => simp only [GB]; omega

theorem GB_mono (store : Store) : ∀ M N : Nat, M ≤ N → GB store M ≤ GB store N := by
  intro M N h
  induction N with
  | zero =>
    have : M = 0 := by omega
    rw [this]
  | succ N ih =>
    by_cases hMN : M ≤ N
    · have := ih hMN
      simp only [GB]
      omega
    · have : M = N + 1 := by omega
      rw [this]

/-- The tree-entry child hashes of the lines of a record. -/
theorem mem_filterMap_tail {α β : Type} (tok : α → Option β) (l : α) (rest : List α)
    (c : β) (hc : c ∈ rest.filterMap tok) : c ∈ (l :: rest).filterMap tok := by
  rw [List.mem_filterMap] at hc ⊢
  obtain ⟨a, ha, hta⟩ := hc
  exact ⟨a, List.mem_cons_of_mem l ha, hta⟩

/-- The entry loop does not run out of fuel when every `tree`-typed child
resolves within fuel `B` and the fuel exceeds the line count plus `B`. -/
theorem ptl_bound (store : Store) (B : Nat) : ∀ lines : List String,
    (∀ c ∈ lines.filterMap treeEntryTok, ∀ k, B ≤ k → ∀ (st : St) (name : String),
        (get_tree k store st c name).1 ≠ .error .noFuel) →
    ∀ (j : Nat) (st : St) (aT aB : List String), lines.length + B + 1 ≤ j →
    (parse_tree_lines j store st lines aT aB).1 ≠ .error .noFuel := by
  intro lines
  induction lines with
  | nil =>
    intro _ j st aT aB hj
    obtain ⟨j', rfl⟩ : ∃ j', j = j' + 1 := ⟨j - 1, by omega⟩
    simp [parse_tree_lines]
  | cons l rest ih =>
    intro hch j st aT aB hj
    obtain ⟨j', rfl⟩ : ∃ j', j = j' + 1 := ⟨j - 1, by simp at hj; omega⟩
    have hch' := fun c hc => hch c (mem_filterMap_tail treeEntryTok l rest c hc)
    have hj' : rest.length + B + 1 ≤ j' := by simp at hj; omega
    simp only [parse_tree_lines]
    by_cases h0 : l = ""
    · rw [if_pos h0]
      exact ih hch' j' st aT aB hj'
    · rw [if_neg h0]
      rcases h4 : entry4? l with _ | ⟨m4, ty, c, nm⟩
      · simp [h4]
      · simp only [h4]
        by_cases hty : ty = "tree"
        · rw [if_pos hty]
          have hcmem : c ∈ (l :: rest).filterMap treeEntryTok := by
            rw [List.mem_filterMap]
            exact ⟨l, List.mem_cons_self l rest, by simp [treeEntryTok, h4, hty]⟩
          have hgt := hch c hcmem j' (by omega) st nm
          rcases hgtr : get_tree j' store st c nm with ⟨e | v, st₂⟩
          · rw [hgtr] at hgt
            simpa [hgtr] using hgt
          · simp only [hgtr]
            exact ih hch' j' st₂ (aT ++ [c]) aB hj'
        · rw [if_neg hty]
          by_cases hty' : ty = "blob"
          · rw [if_pos hty']
            exact ih hch' j' _ aT (aB ++ [c]) hj'
          · rw [if_neg hty']
            exact ih hch' j' st aT aB hj'

/-- `get_tree` does not run out of fuel `GB store N` on a hash of height at
most `N`, for a store whose tree references strictly descend under `f`. -/
theorem get_tree_bound (store : Store) (f : String → Nat)
    (hf : ∀ c h, treeRel store c h → f c < f h) : ∀ (N : Nat) (h : String), f h ≤ N →
    ∀ (k : Nat), GB store N ≤ k → ∀ (st : St) (name : String),
    (get_tree k store st h name).1 ≠ .error .noFuel := by
  intro N
  induction N using Nat.strong_induction_on with
  | _ N IH =>
    intro h hN k hk st name
    have hge := GB_ge store N
    obtain ⟨k', rfl⟩ : ∃ k', k = k' + 1 := ⟨k - 1, by omega⟩
    simp only [get_tree]
    split
    · simp
    · split
      · next e st₁ heqf =>
        have := git_cat_file_err store st h e st₁ heqf
        subst this
        simp
      · next content st₁ heqf =>
        have hstore := git_cat_file_ok_store store st h content st₁ heqf
        have hlen := lines_le_maxLines store h content hstore
        have hpt : (parse_tree k' store st₁ h name content).1 ≠ .error .noFuel := by
          obtain ⟨k'', rfl⟩ : ∃ k'', k' = k'' + 1 := ⟨k' - 1, by omega⟩
          simp only [parse_tree]
          have hptl : (parse_tree_lines k'' store st₁ (splitLines content) [] []).1 ≠
              .error .noFuel := by
            rcases N with _ | N'
            · refine ptl_bound store 0 (splitLines content) ?_ k'' st₁ [] [] ?_
              · intro c hc
                have : treeRel store c h := ⟨content, hstore, hc⟩
                have := hf c h this
                omega
              · have : GB store 0 = maxLines store + 3 := rfl
                omega
            · refine ptl_bound store (GB store N') (splitLines content) ?_ k'' st₁ [] [] ?_
              · intro c hc k₀ hk₀ st₀ name₀
                have hrel : treeRel store c h := ⟨content, hstore, hc⟩
                have hlt : f c < f h := hf c h hrel
                refine IH (f c) (by omega) c (le_refl _) k₀ ?_ st₀ name₀
                exact le_trans (GB_mono store (f c) N' (by omega)) hk₀
              · have : GB store (N' + 1) = GB store N' + (maxLines store + 3) := rfl
                omega
          rcases hptlr : parse_tree_lines k'' store st₁ (splitLines content) [] []
            with ⟨e | res, st₂⟩
          · rw [hptlr] at hptl
            simpa [hptlr] using hptl
          · simp [hptlr]
        rcases hptr : parse_tree k' store st₁ h name content with ⟨e | tr, st₂⟩
        · rw [hptr] at hpt
          simpa [hptr] using hpt
        · simp only [hptr]
          split
          · simp
          · simp

/-- Fuel sufficient for any `get_commit` call. -/
def KC (store : Store) (f : String → Nat) : Nat :=
  GB store (maxTreeHeight f store) + 2

theorem get_commit_bound (store : Store) (f : String → Nat)
    (hf : ∀ c h, treeRel store c h → f c < f h) : ∀ (k : Nat), KC store f ≤ k →
    ∀ (st : St) (h : String), (get_commit k store st h).1 ≠ .error .noFuel := by
  intro k hk st h
  have hge := GB_ge store (maxTreeHeight f store)
  have hKC : KC store f = GB store (maxTreeHeight f store) + 2 := rfl
  obtain ⟨k', rfl⟩ : ∃ k', k = k' + 1 := ⟨k - 1, by omega⟩
  simp only [get_commit]
  split
  · simp
  · split
    · next e st₁ heqf =>
      have := git_cat_file_err store st h e st₁ heqf
      subst this
      simp
    · next content st₁ heqf =>
      have hstore := git_cat_file_ok_store store st h content st₁ heqf
      split
      · simp
      · next t heqt =>
        have hft : f t ≤ maxTreeHeight f store := tree_height_le f store h content t hstore heqt
        have hgt := get_tree_bound store f hf (maxTreeHeight f store) t hft k' (by omega)
          { st₁ with cache := setA st₁.cache h (.commit (parse_commit h content)) } "/"
        rcases hgtr : get_tree k' store
            { st₁ with cache := setA st₁.cache h (.commit (parse_commit h content)) } t "/"
          with ⟨e | tv, st₂⟩
        · rw [hgtr] at hgt
          simpa [hgtr] using hgt
        · simp only [hgtr]
          split
          · simp
          · simp

/-- Fuel sufficient for `traverse_history` when at most `u` store hashes are
unvisited. -/
def TB (store : Store) (f : String → Nat) : Nat → Nat
  | 0 => KC store f + maxLines store + 4
  | u + 1 => TB store f u + (KC store f + maxLines store + 4)

theorem TB_ge (store : Store) (f : String → Nat) (u : Nat) :
    KC store f + maxLines store + 4 ≤ TB store f u := by
  induction u with
  | zero => exact le_refl _
  | succ u ih => simp only [TB]; omega

theorem TB_mono (store : Store) (f : String → Nat) : ∀ M N : Nat, M ≤ N →
    TB store f M ≤ TB store f N := by
  intro M N h
  induction N with
  | zero =>
    have : M = 0 := by omega
    rw [this]
  | succ N ih =>
    by_cases hMN : M ≤ N
    · have := ih hMN
      simp only [TB]
      omega
    · have : M = N + 1 := by omega
      rw [this]

theorem TB_succ_sub (store : Store) (f : String → Nat) (u : Nat) (hu : 1 ≤ u) :
    TB store f u = TB store f (u - 1) + (KC store f + maxLines store + 4) := by
  obtain ⟨u', rfl⟩ : ∃ u', u = u' + 1 := ⟨u - 1, by omega⟩
  rfl

/-- The ancestry walk does not run out of fuel `TB store f u` when at most
`u` store hashes are unvisited, whatever the (possibly cyclic) parent
references are. -/
theorem traverse_bound (store : Store) (f : String → Nat)
    (hf : ∀ c h, treeRel store c h → f c < f h) : ∀ (u : Nat) (v : List String) (st : St)
    (h : String), unvisited store v ≤ u → CacheGood store st → ∀ n, TB store f u ≤ n →
    (traverse_history n store st v h).1 ≠ .error .noFuel := by
  intro u
  induction u using Nat.strong_induction_on with
  | _ u IH =>
    intro v st h hu hcg n hn
    have hTBge := TB_ge store f u
    obtain ⟨m, rfl⟩ : ∃ m, n = m + 1 := ⟨n - 1, by omega⟩
    simp only [traverse_history]
    split
    · simp
    · next hnv =>
      have hcg1 : CacheGood store { st with walkLog := st.walkLog ++ [h] } :=
        cacheGood_same_cache rfl hcg
      have hgc := get_commit_bound store f hf m (by omega)
        { st with walkLog := st.walkLog ++ [h] } h
      rcases hgcr : get_commit m store { st with walkLog := st.walkLog ++ [h] } h
        with ⟨rg | obj, st₂⟩
      · rw [hgcr] at hgc
        simpa [hgcr] using hgc
      · simp only [hgcr]
        rcases obj with c | tobj
        case tree => simp
        case commit =>
          have hcg2 : CacheGood store st₂ := by
            have := (cacheGood_run m).2.2.2 store { st with walkLog := st.walkLog ++ [h] } h hcg1
            rw [hgcr] at this
            exact this
          have hlk : lookupA st₂.cache h = some (.commit c) :=
            get_commit_ok_lookup m store { st with walkLog := st.walkLog ++ [h] } h
              (.commit c) st₂ hgcr
          obtain ⟨content, hsh, hcEq⟩ := hcg2 h c hlk
          have hplen : c.parents.length ≤ maxLines store := by
            rw [hcEq]
            exact le_trans (parse_commit_parents_le h content)
              (lines_le_maxLines store h content hsh)
          have hhs : h ∈ keysA store := mem_keysA_of_lookupA store h content hsh
          have hu1 : 1 ≤ unvisited store v := unvisited_pos store v h hhs hnv
          have hv1 : unvisited store (h :: v) ≤ u - 1 := by
            have := unvisited_strict store v h hhs hnv
            omega
          have hTBsub := TB_succ_sub store f u (by omega)
          have htp : ∀ (ps : List String), ∀ (st' : St) (v' : List String),
              CacheGood store st' → (∀ x ∈ h :: v, x ∈ v') →
              ∀ m', ps.length + TB store f (u - 1) + 1 ≤ m' →
              (traverse_parents m' store st' v' h ps).1 ≠ .error .noFuel := by
            intro ps
            induction ps with
            | nil =>
              intro st' v' _ _ m' hm'
              obtain ⟨m'', rfl⟩ : ∃ m'', m' = m'' + 1 := ⟨m' - 1, by omega⟩
              simp [traverse_parents]
            | cons p rest ihp =>
              intro st' v' hcg' hsub' m' hm'
              obtain ⟨m'', rfl⟩ : ∃ m'', m' = m'' + 1 := ⟨m' - 1, by simp at hm'; omega⟩
              have hm'' : rest.length + TB store f (u - 1) + 1 ≤ m'' := by
                simp at hm'; omega
              simp only [traverse_parents]
              have hcgm : CacheGood store
                  { st' with commit_to_parents := add_to_multimap st'.commit_to_parents h p } :=
                cacheGood_same_cache rfl hcg'
              have hvm : unvisited store v' ≤ u - 1 :=
                le_trans (unvisited_anti store (h :: v) v' hsub') hv1
              have hth := IH (u - 1) (by omega) v'
                { st' with commit_to_parents := add_to_multimap st'.commit_to_parents h p }
                p hvm hcgm m'' (by omega)
              rcases hthr : traverse_history m'' store
                  { st' with commit_to_parents := add_to_multimap st'.commit_to_parents h p }
                  v' p with ⟨rt | _, st₃, v₃⟩
              · rw [hthr] at hth
                simpa [hthr] using hth
              · simp only [hthr]
                have tp3 := (tpres_run m'').1 store
                  { st' with commit_to_parents := add_to_multimap st'.commit_to_parents h p }
                  v' p
                rw [hthr] at tp3
                exact ihp st₃ v₃ (tp3.2.1 hcgm) (fun x hx => tp3.1 x (hsub' x hx)) m'' hm''
          exact htp c.parents st₂ (h :: v) hcg2 (fun x hx => hx) m (by omega)

/-- The whole run does not run out of fuel `TB store f (unvisited store v)`. -/
theorem pdgd_bound (store : Store) (f : String → Nat)
    (hf : ∀ c h, treeRel store c h → f c < f h) : ∀ (branches : List (String × String))
    (st : St) (v : List String), CacheGood store st →
    ∀ n, TB store f (unvisited store v) ≤ n →
    (parse_dot_git_dir n store st v branches).1 ≠ .error .noFuel := by
  intro branches
  induction branches with
  | nil =>
    intro st v _ n _
    simp [parse_dot_git_dir]
  | cons b rest ih =>
    intro st v hcg n hn
    obtain ⟨name, commit⟩ := b
    simp only [parse_dot_git_dir]
    have hcgb : CacheGood store
        { st with branch_to_commit := setA st.branch_to_commit name commit } :=
      cacheGood_same_cache rfl hcg
    have hth := traverse_bound store f hf (unvisited store v) v
      { st with branch_to_commit := setA st.branch_to_commit name commit } commit
      (le_refl _) hcgb n hn
    rcases hthr : traverse_history n store
        { st with branch_to_commit := setA st.branch_to_commit name commit } v commit
      with ⟨rt | _, st₂, v₂⟩
    · rw [hthr] at hth
      simpa [hthr] using hth
    · simp only [hthr]
      have tp := (tpres_run n).1 store
        { st with branch_to_commit := setA st.branch_to_commit name commit } v commit
      rw [hthr] at tp
      refine ih st₂ v₂ (tp.2.1 hcgb) n (le_trans ?_ hn)
      exact TB_mono store f _ _ (unvisited_anti store v v₂ tp.1)

/-- C1: for every store whose tree references admit a height function (as any
content-addressed store does) and every set of branch tips, the depth-first
ancestry walk terminates — there is a fuel on which the run completes with a
genuine result (success or a propagated error), never fuel exhaustion — even
when the parent references contain a cycle; and, for every fuel, the walk
log of the run has no duplicates: each commit's ancestry body is walked at
most once however many branch tips reach it, because visited commits are
tracked in the visited set, which is independent of the object cache. -/
theorem traversal_terminates_walks_once (store : Store) (tips : List (String × String))
    (f : String → Nat) (hf : ∀ c h, treeRel store c h → f c < f h) :
    (∃ n, (parse_dot_git_dir n store St.new [] tips).1 ≠ .error .noFuel)
    ∧ (∀ n, ((parse_dot_git_dir n store St.new [] tips).2.1.walkLog).Nodup) := by
  constructor
  · exact ⟨TB store f (unvisited store []),
      pdgd_bound store f hf tips St.new [] (cacheGood_new store) _ (le_refl _)⟩
  · intro n
    have tp := tpres_pdgd tips n store St.new []
    have : St.new.walkLog.Nodup ∧ ∀ x ∈ St.new.walkLog, x ∈ ([] : List String) := by
      constructor
      · exact List.nodup_nil
      · intro x hx
        simp [St.new] at hx
    exact (tp.2.2 this.1 this.2).1

/-- Witness for C1: two branch tips `main → c1` and `feature → c2` sharing
the ancestor `c0`, whose parent reference points back at `c1` (a cycle); the
constant-zero height function works because no record has a `tree`-typed
child entry. -/
theorem traversal_terminates_walks_once_witness :
    (∃ n, (parse_dot_git_dir n
        [("c1", "tree t0\nparent c0"), ("c2", "tree t0\nparent c0"),
          ("c0", "tree t0\nparent c1"), ("t0", "")]
        St.new [] [("main", "c1"), ("feature", "c2")]).1 ≠ .error .noFuel)
    ∧ (∀ n, ((parse_dot_git_dir n
        [("c1", "tree t0\nparent c0"), ("c2", "tree t0\nparent c0"),
          ("c0", "tree t0\nparent c1"), ("t0", "")]
        St.new [] [("main", "c1"), ("feature", "c2")]).2.1.walkLog).Nodup) := by
  refine traversal_terminates_walks_once _ _ (fun _ => 0) ?_
  intro c h hrel
  exfalso
  obtain ⟨content, hl, hc⟩ := hrel
  simp only [lookupA] at hl
  split at hl
  · cases hl
    have hnil : (splitLines "tree t0\nparent c0").filterMap treeEntryTok = [] := by decide
    rw [hnil] at hc
    exact absurd hc (List.not_mem_nil c)
  · split at hl
    · cases hl
      have hnil : (splitLines "tree t0\nparent c0").filterMap treeEntryTok = [] := by decide
      rw [hnil] at hc
      exact absurd hc (List.not_mem_nil c)
    · split at hl
      · cases hl
        have hnil : (splitLines "tree t0\nparent c1").filterMap treeEntryTok = [] := by decide
        rw [hnil] at hc
        exact absurd hc (List.not_mem_nil c)
      · split at hl
        · cases hl
          have hnil : (splitLines "").filterMap treeEntryTok = [] := by decide
          rw [hnil] at hc
          exact absurd hc (List.not_mem_nil c)
        · cases hl

end GitGraph

